import Mathlib

/- Verification development for the GameMaker Studio 2 project parser
   (src/tools/gms2_parser.py).  Text is modelled as `List Char`, Python
   values as the inductive `PyVal`, and the filesystem as the inductive
   `FSNode`.  The source manipulates only Python big integers, so `Nat`
   and `Int` are used directly.  All definitions are executable
   (fuel-based where the Python recursion is not structural), so that
   concrete witnesses evaluate by `decide` / `rfl`. -/

/-- Utility: a Lean string literal as the `List Char` text model. -/
def cs (s : String) : List Char := s.data

/- ===================================================================
   Part 1.  The trailing-separator repair pass.
   Source: `re.sub(r",\s*([]}])", r"\1", content)` in `get_room_info`
   (line 171) and `get_object_info` (line 199).  The regex matches a
   comma, then a maximal run of whitespace, then a closing bracket or
   closing brace, and replaces the whole match by the closer; `re.sub`
   scans left to right and resumes after each replacement.  (Backtracking
   into the `\s*` can never help, because a shorter run of whitespace
   leaves a whitespace character where the closer is required, so the
   match succeeds exactly when the maximal whitespace run is followed by
   a closer.)  The `\s` class is modelled by its ASCII members.
   =================================================================== -/

/-- Membership in the regex class `\s`, restricted to ASCII. -/
def isSpace (c : Char) : Bool :=
  c = ' ' || c = '\t' || c = '\n' || c = '\r' || c = '\x0b' || c = '\x0c'

/-- Membership in the regex class `[]}]`: a closing bracket or brace. -/
def isCloser (c : Char) : Bool := c = ']' || c = '\x7d'

/-- Attempt to match `\s*([]}])` at the head of `l`: skip the maximal
whitespace run and require a closer next, returning the closer and the
remaining text. -/
def closeAfterWs (l : List Char) : Option (Char × List Char) :=
  match l.dropWhile isSpace with
  | [] => Option.none
  | d :: rest => if isCloser d then some (d, rest) else Option.none

/-- Fuelled left-to-right scan of `re.sub(r",\s*([]}])", r"\1", ·)`.
Each step consumes at least one character, so fuel `l.length` suffices. -/
def repairFuel : Nat → List Char → List Char
  | 0, l => l
  | _ + 1, [] => []
  | fuel + 1, c :: rest =>
    if c = ',' then
      match closeAfterWs rest with
      | some (d, rest2) => d :: repairFuel fuel rest2
      | Option.none => c :: repairFuel fuel rest
    else c :: repairFuel fuel rest

/-- The repair pass of the tolerant loader: delete every comma (together
with the whitespace following it) that stands, up to whitespace, directly
before a closing bracket or brace, scanning left to right. -/
def repair (l : List Char) : List Char := repairFuel l.length l

/-- Position-wise match test: does `,\s*([]}])` match at some position of
the text?  `repair` is the identity exactly on texts without a match. -/
def hasMatch : List Char → Bool
  | [] => false
  | c :: rest => (decide (c = ',') && (closeAfterWs rest).isSome) || hasMatch rest

/-- Detects a comma which, after whitespace, is followed by another comma
that itself matches `,\s*([]}])`.  Deleting the inner match glues the outer
comma onto the closer and creates a fresh match, which is the one way a
second `re.sub` pass can differ from the first. -/
def chainTail (l : List Char) : Bool :=
  match l.dropWhile isSpace with
  | ',' :: l2 => (closeAfterWs l2).isSome
  | _ => false

/-- Occurrence test for the chained pattern `,\s*,\s*([]}])`. -/
def hasChain : List Char → Bool
  | [] => false
  | c :: rest => (decide (c = ',') && chainTail rest) || hasChain rest

/-- Transformation described by the words of claim C1: remove every
occurrence of "a sequence of whitespace followed by a comma that is
immediately followed by a closing bracket or closing brace", scanning
left to right.  This is the claim-side reading; the source's regex puts
the whitespace after the comma instead. -/
def specRemoveC1Fuel : Nat → List Char → List Char
  | 0, l => l
  | _ + 1, [] => []
  | fuel + 1, c :: rest =>
    match (c :: rest).dropWhile isSpace with
    | ',' :: cl :: r2 =>
      if isCloser cl then cl :: specRemoveC1Fuel fuel r2
      else c :: specRemoveC1Fuel fuel rest
    | _ => c :: specRemoveC1Fuel fuel rest

/-- Claim-side removal pass for C1 (whitespace, then comma, then closer). -/
def specRemoveC1 (l : List Char) : List Char := specRemoveC1Fuel l.length l

/-- Text of the spec's running example `{"a": 1, "b": [2, 3,],}`. -/
def exampleRaw : List Char :=
  ['\x7b', '"', 'a', '"', ':', ' ', '1', ',', ' ', '"', 'b', '"', ':', ' ',
   '[', '2', ',', ' ', '3', ',', ']', ',', '\x7d']

/-- Text of the example once repaired: `{"a": 1, "b": [2, 3]}`. -/
def exampleFixed : List Char :=
  ['\x7b', '"', 'a', '"', ':', ' ', '1', ',', ' ', '"', 'b', '"', ':', ' ',
   '[', '2', ',', ' ', '3', ']', '\x7d']

/- ===================================================================
   Part 2.  Python values.
   Descriptor records are the values `json.loads` can produce.  The
   mutual shape (with bespoke list/dict spines) keeps every recursion
   structural, hence kernel-computable. -/

mutual
inductive PyVal where
  | none
  | bool (b : Bool)
  | int (n : Int)
  | str (s : List Char)
  | list (xs : PyList)
  | dict (xs : PyDict)
inductive PyList where
  | nil
  | cons (v : PyVal) (rest : PyList)
inductive PyDict where
  | nil
  | cons (k : List Char) (v : PyVal) (rest : PyDict)
end

/-- Length of a modelled Python list. -/
def PyList.length : PyList → Nat
  | PyList.nil => 0
  | PyList.cons _ rest => rest.length + 1

/-- Emptiness test for a modelled Python list. -/
def PyList.isNil : PyList → Bool
  | PyList.nil => true
  | PyList.cons _ _ => false

/-- Length of a modelled Python dict. -/
def PyDict.length : PyDict → Nat
  | PyDict.nil => 0
  | PyDict.cons _ _ rest => rest.length + 1

/-- Keys of a dict, as Python string values, in insertion order. -/
def PyDict.keys : PyDict → PyList
  | PyDict.nil => PyList.nil
  | PyDict.cons k _ rest => PyList.cons (PyVal.str k) rest.keys

/-- Lookup in a dict; the first binding for a key wins (`json.loads`
keeps one binding per key, so the spine never repeats a key in texts it
produces). -/
def dlookup : PyDict → List Char → Option PyVal
  | PyDict.nil, _ => Option.none
  | PyDict.cons k v rest, key => if k = key then some v else dlookup rest key

/-- Python's `d.get(key, dflt)`. -/
def pdGetD (xs : PyDict) (key : List Char) (dflt : PyVal) : PyVal :=
  (dlookup xs key).getD dflt

/-- Python truthiness of a value (`if v:`). -/
def pyTruthy : PyVal → Bool
  | PyVal.none => false
  | PyVal.bool b => b
  | PyVal.int n => decide (n ≠ 0)
  | PyVal.str s => decide (s ≠ [])
  | PyVal.list xs => !xs.isNil
  | PyVal.dict xs => decide (xs.length ≠ 0)

/-- Test for the Python value `None` (`v is None` on loaded data). -/
def isNoneV : PyVal → Bool
  | PyVal.none => true
  | _ => false

/-- Python's `len(v)`; `Option.none` models the `TypeError` raised on an
unsized value. -/
def pyLen : PyVal → Option Nat
  | PyVal.str s => some s.length
  | PyVal.list xs => some xs.length
  | PyVal.dict xs => some xs.length
  | _ => Option.none

/-- The characters of a string as one-character Python strings. -/
def strToPyList : List Char → PyList
  | [] => PyList.nil
  | c :: rest => PyList.cons (PyVal.str [c]) (strToPyList rest)

/-- Python's `for x in v`: the sequence iterated over, or `Option.none`
for the `TypeError` on a non-iterable value (dicts yield their keys). -/
def asIter : PyVal → Option PyList
  | PyVal.list xs => some xs
  | PyVal.str s => some (strToPyList s)
  | PyVal.dict xs => some xs.keys
  | _ => Option.none

/-- Decimal digits of `n`, fuelled (`n / 10 < n` for `n > 0`, so fuel `n`
suffices for positive `n`). -/
def natCharsAux : Nat → Nat → List Char
  | 0, _ => []
  | _ + 1, 0 => []
  | fuel + 1, n + 1 => natCharsAux fuel ((n + 1) / 10) ++ [Char.ofNat (48 + (n + 1) % 10)]

/-- Python's `str(n)` for a nonnegative integer. -/
def natChars (n : Nat) : List Char := if n = 0 then ['0'] else natCharsAux n n

/-- Python's `str(n)` for an integer. -/
def intChars : Int → List Char
  | Int.ofNat n => natChars n
  | Int.negSucc n => '-' :: natChars (n + 1)

mutual
/-- Python's `str(v)` as used by f-strings.  Containers render through
`repr`; the repr of nested strings is approximated with single quotes and
no escaping, which no claim depends on. -/
def pyStr : PyVal → List Char
  | PyVal.none => cs "None"
  | PyVal.bool true => cs "True"
  | PyVal.bool false => cs "False"
  | PyVal.int n => intChars n
  | PyVal.str s => s
  | PyVal.list xs => '[' :: (pyListRepr xs ++ [']'])
  | PyVal.dict xs => '\x7b' :: (pyDictRepr xs ++ ['\x7d'])
/-- Python's `repr(v)` (approximate for strings, see `pyStr`). -/
def pyRepr : PyVal → List Char
  | PyVal.none => cs "None"
  | PyVal.bool true => cs "True"
  | PyVal.bool false => cs "False"
  | PyVal.int n => intChars n
  | PyVal.str s => '\x27' :: (s ++ ['\x27'])
  | PyVal.list xs => '[' :: (pyListRepr xs ++ [']'])
  | PyVal.dict xs => '\x7b' :: (pyDictRepr xs ++ ['\x7d'])
/-- Comma-separated reprs of a list's elements. -/
def pyListRepr : PyList → List Char
  | PyList.nil => []
  | PyList.cons v PyList.nil => pyRepr v
  | PyList.cons v (PyList.cons w rest) =>
      pyRepr v ++ ',' :: ' ' :: pyListRepr (PyList.cons w rest)
/-- Comma-separated `key: value` reprs of a dict's bindings. -/
def pyDictRepr : PyDict → List Char
  | PyDict.nil => []
  | PyDict.cons k v PyDict.nil => pyRepr (PyVal.str k) ++ ':' :: ' ' :: pyRepr v
  | PyDict.cons k v (PyDict.cons k2 v2 rest) =>
      pyRepr (PyVal.str k) ++ ':' :: ' ' :: pyRepr v ++ ',' :: ' ' ::
        pyDictRepr (PyDict.cons k2 v2 rest)
end

/- ===================================================================
   Part 3.  Structured-data parsing.
   Modelled from the spec: the source calls the standard library's
   `json.loads` (not part of this repository); spec section 4.1 calls it
   "a standard nested-structure parser" producing maps, sequences and
   scalars.  The model covers objects, arrays, strings (with the common
   escapes), integers, booleans and null, and requires the whole text to
   be consumed.  Number grammar niceties (floats, exponents, leading
   zeros) are outside the model. -/

/-- JSON insignificant whitespace. -/
def jsonWs (c : Char) : Bool := c = ' ' || c = '\t' || c = '\n' || c = '\r'

/-- Skip insignificant whitespace. -/
def skipWs (l : List Char) : List Char := l.dropWhile jsonWs

/-- Translation of a character escape in a JSON string. -/
def escChar (c : Char) : Option Char :=
  if c = '"' then some '"'
  else if c = '\\' then some '\\'
  else if c = '/' then some '/'
  else if c = 'n' then some '\n'
  else if c = 't' then some '\t'
  else if c = 'r' then some '\r'
  else if c = 'b' then some '\x08'
  else if c = 'f' then some '\x0c'
  else Option.none

/-- Parse the body of a JSON string after its opening quote, up to and
past the closing quote. -/
def parseJString : List Char → Option (List Char × List Char)
  | [] => Option.none
  | '"' :: r => some ([], r)
  | '\\' :: e :: r => do
      let c ← escChar e
      let (s, r2) ← parseJString r
      pure (c :: s, r2)
  | c :: r => do
      let (s, r2) ← parseJString r
      pure (c :: s, r2)

/-- Value of a digit string read left to right. -/
def digitsToNat : List Char → Nat :=
  List.foldl (fun acc c => acc * 10 + (c.toNat - 48)) 0

/-- Parse a maximal nonempty digit run. -/
def parseNat (l : List Char) : Option (Nat × List Char) :=
  match l.takeWhile Char.isDigit with
  | [] => Option.none
  | ds => some (digitsToNat ds, l.dropWhile Char.isDigit)

mutual
/-- Parse one JSON value (fuelled recursive descent). -/
def jsonVal : Nat → List Char → Option (PyVal × List Char)
  | 0, _ => Option.none
  | fuel + 1, l =>
    match skipWs l with
    | '\x7b' :: r => jsonObjBody fuel r
    | '[' :: r => jsonArrBody fuel r
    | '"' :: r => (parseJString r).map (fun p => (PyVal.str p.1, p.2))
    | 'n' :: 'u' :: 'l' :: 'l' :: r => some (PyVal.none, r)
    | 't' :: 'r' :: 'u' :: 'e' :: r => some (PyVal.bool true, r)
    | 'f' :: 'a' :: 'l' :: 's' :: 'e' :: r => some (PyVal.bool false, r)
    | '-' :: r => (parseNat r).map (fun p => (PyVal.int (-(p.1 : Int)), p.2))
    | l2 => (parseNat l2).map (fun p => (PyVal.int (p.1 : Int), p.2))
/-- Parse an object body after `{`. -/
def jsonObjBody : Nat → List Char → Option (PyVal × List Char)
  | 0, _ => Option.none
  | fuel + 1, l =>
    match skipWs l with
    | '\x7d' :: r => some (PyVal.dict PyDict.nil, r)
    | l2 => (jsonMembers fuel l2).map (fun p => (PyVal.dict p.1, p.2))
/-- Parse one or more `"key": value` members and the closing `}`. -/
def jsonMembers : Nat → List Char → Option (PyDict × List Char)
  | 0, _ => Option.none
  | fuel + 1, l =>
    match skipWs l with
    | '"' :: r => do
        let (k, r1) ← parseJString r
        match skipWs r1 with
        | ':' :: r2 => do
            let (v, r3) ← jsonVal fuel r2
            match skipWs r3 with
            | ',' :: r4 => do
                let (rest, r5) ← jsonMembers fuel r4
                pure (PyDict.cons k v rest, r5)
            | '\x7d' :: r4 => pure (PyDict.cons k v PyDict.nil, r4)
            | _ => Option.none
        | _ => Option.none
    | _ => Option.none
/-- Parse an array body after `[`. -/
def jsonArrBody : Nat → List Char → Option (PyVal × List Char)
  | 0, _ => Option.none
  | fuel + 1, l =>
    match skipWs l with
    | ']' :: r => some (PyVal.list PyList.nil, r)
    | l2 => (jsonElems fuel l2).map (fun p => (PyVal.list p.1, p.2))
/-- Parse one or more array elements and the closing `]`. -/
def jsonElems : Nat → List Char → Option (PyList × List Char)
  | 0, _ => Option.none
  | fuel + 1, l => do
      let (v, r1) ← jsonVal fuel l
      match skipWs r1 with
      | ',' :: r2 => do
          let (rest, r3) ← jsonElems fuel r2
          pure (PyList.cons v rest, r3)
      | ']' :: r2 => pure (PyList.cons v PyList.nil, r2)
      | _ => Option.none
end

/-- Modelled `json.loads`: parse a complete text (three fuel units cover
each consumed character; `+ 3` covers the empty nesting steps). -/
def jsonParse (l : List Char) : Option PyVal :=
  match jsonVal (3 * l.length + 3) l with
  | some (v, r) => if skipWs r = [] then some v else Option.none
  | Option.none => Option.none

/- ===================================================================
   Part 4.  The filesystem model.
   Directory trees stand for what `os.path` / `os.listdir` / `os.walk`
   observe.  A file carries `some` content, or `Option.none` when every
   attempt to read it raises (an unreadable file).  Paths are lists of
   name components relative to the project root; `os.path.join` / `os.sep`
   are modelled by the component structure itself. -/

mutual
inductive FSNode where
  | file (content : Option (List Char))
  | dir (entries : FSEntries)
inductive FSEntries where
  | nil
  | cons (name : List Char) (node : FSNode) (rest : FSEntries)
end

/-- Entry names in listing order (`os.listdir`). -/
def fsNames : FSEntries → List (List Char)
  | FSEntries.nil => []
  | FSEntries.cons n _ rest => n :: fsNames rest

/-- Names of the file entries, in listing order. -/
def fsFileNames : FSEntries → List (List Char)
  | FSEntries.nil => []
  | FSEntries.cons n (FSNode.file _) rest => n :: fsFileNames rest
  | FSEntries.cons _ (FSNode.dir _) rest => fsFileNames rest

/-- Does a directory hold a regular file with this name? -/
def fsHasFile : FSEntries → List Char → Bool
  | FSEntries.nil, _ => false
  | FSEntries.cons n (FSNode.file _) rest, key =>
      decide (n = key) || fsHasFile rest key
  | FSEntries.cons n (FSNode.dir _) rest, key =>
      if n = key then false else fsHasFile rest key

/-- First entry with the given name. -/
def findEntry : FSEntries → List Char → Option FSNode
  | FSEntries.nil, _ => Option.none
  | FSEntries.cons n nd rest, key => if n = key then some nd else findEntry rest key

/-- Resolve a component path from a node. -/
def lookupPath : FSNode → List (List Char) → Option FSNode
  | nd, [] => some nd
  | FSNode.dir es, c :: rest =>
      match findEntry es c with
      | some nd => lookupPath nd rest
      | Option.none => Option.none
  | FSNode.file _, _ :: _ => Option.none

/-- Python's `os.path.isfile` relative to the root node. -/
def isFileAt (fs : FSNode) (p : List (List Char)) : Bool :=
  match lookupPath fs p with
  | some (FSNode.file _) => true
  | _ => false

/-- Python's `os.path.isdir` relative to the root node. -/
def isDirAt (fs : FSNode) (p : List (List Char)) : Bool :=
  match lookupPath fs p with
  | some (FSNode.dir _) => true
  | _ => false

/-- Read a file: `some (some c)` for readable content, `some Option.none`
for a file whose read raises, `Option.none` when no file is there. -/
def readFileAt (fs : FSNode) (p : List (List Char)) : Option (Option (List Char)) :=
  match lookupPath fs p with
  | some (FSNode.file c) => some c
  | _ => Option.none

/-- Entry names of the directory at `p` (empty when `p` is no directory). -/
def listNamesAt (fs : FSNode) (p : List (List Char)) : List (List Char) :=
  match lookupPath fs p with
  | some (FSNode.dir es) => fsNames es
  | _ => []

/- ===================================================================
   Part 5.  Sorting and small text helpers used by the scanner. -/

/-- Python's string comparison: lexicographic by code point. -/
def lexLe : List Char → List Char → Bool
  | [], _ => true
  | _ :: _, [] => false
  | a :: as, b :: bs => if a = b then lexLe as bs else decide (a.toNat < b.toNat)

/-- Insertion into a sorted list. -/
def insertLe (le : α → α → Bool) (x : α) : List α → List α
  | [] => [x]
  | y :: ys => if le x y then x :: y :: ys else y :: insertLe le x ys

/-- Insertion sort (used for Python's `sorted`, which only needs to agree
on the order, not on the algorithm). -/
def sortLe (le : α → α → Bool) : List α → List α
  | [] => []
  | x :: xs => insertLe le x (sortLe le xs)

/-- Python's `str.lower` (ASCII, as the reserved names are ASCII). -/
def lowerStr (s : List Char) : List Char := s.map Char.toLower

/-- Root part of `os.path.splitext`: strip the extension after the last
dot, unless every character before that dot is itself a dot. -/
def splitExtRoot (s : List Char) : List Char :=
  match (s.reverse).dropWhile (fun c => decide (c ≠ '.')) with
  | [] => s
  | _ :: beforeRev =>
      if beforeRev.any (fun c => decide (c ≠ '.')) then beforeRev.reverse else s

/-- Python's `os.path.basename` (POSIX separator). -/
def baseName (s : List Char) : List Char :=
  ((s.reverse).takeWhile (fun c => decide (c ≠ '/'))).reverse

/-- Components of a path joined with the separator (`os.path.join` /
`os.path.relpath` on component paths). -/
def joinPath : List (List Char) → List Char
  | [] => []
  | [c] => c
  | c :: rest => c ++ '/' :: joinPath rest

/- ===================================================================
   Part 6.  The full-tree scan `_scan_gml_files` (lines 107-138).
   `os.walk` visits a directory, then its subdirectories in listing
   order; the code prunes (`dirs[:] = []; continue`) every directory
   whose relative path starts with a reserved top-level name, compared
   case-insensitively, and collects each `.gml` file (file names sorted)
   as a record with a display name and an optional sibling `.yy`
   descriptor named after the parent directory. -/

/-- Reserved top-level folder names (line 114). -/
def reservedTop : List (List Char) :=
  [cs "options", cs "datafiles", cs "configs", cs ".git", cs ".vscode", cs "temp"]

/-- Suffix test for the script extension. -/
def endsGml (s : List Char) : Bool := (cs ".gml").isSuffixOf s

/-- One entry of `project_gml_files_details`; paths are kept as component
lists relative to the project root (`relDir ++ [fname]` is the file). -/
structure GmlRec where
  display : List Char
  relDir : List (List Char)
  fname : List Char
  assetYy : Option (List (List Char))
deriving DecidableEq

/-- Record for one `.gml` file found in the directory `rel` whose
entries are `es` (lines 120-138). -/
def mkGmlRec (projName : List Char) (es : FSEntries) (rel : List (List Char))
    (f : List Char) : GmlRec :=
  let parent := rel.getLastD projName
  let yyName := parent ++ cs ".yy"
  { display := parent ++ cs " / " ++ splitExtRoot f
    relDir := rel
    fname := f
    assetYy := if fsHasFile es yyName then some (rel ++ [yyName]) else Option.none }

/-- The records contributed by one visited directory: its `.gml` files
in sorted order. -/
def hereGmlRecs (projName : List Char) (es : FSEntries)
    (rel : List (List Char)) : List GmlRec :=
  ((sortLe lexLe (fsFileNames es)).filter endsGml).map (mkGmlRec projName es rel)

/-- Is a (non-root) relative directory pruned?  The check compares the
lowercased first component of the relative path (line 113-114). -/
def prunedRel (rel : List (List Char)) : Bool :=
  match rel with
  | [] => false
  | top :: _ => decide (lowerStr top ∈ reservedTop)

mutual
/-- The walk of `_scan_gml_files`, accumulating records in visit order. -/
def walkGml (projName : List Char) : FSNode → List (List Char) → List GmlRec
  | FSNode.file _, _ => []
  | FSNode.dir es, rel =>
      if prunedRel rel then []
      else hereGmlRecs projName es rel ++ walkSubs projName es rel
/-- Recursion of the walk over a directory's entries in listing order. -/
def walkSubs (projName : List Char) : FSEntries → List (List Char) → List GmlRec
  | FSEntries.nil, _ => []
  | FSEntries.cons nm nd rest, rel =>
      (match nd with
       | FSNode.dir _ => walkGml projName nd (rel ++ [nm])
       | FSNode.file _ => []) ++ walkSubs projName rest rel
end

/-- `_scan_gml_files` from the project root. -/
def scanGmlFiles (projName : List Char) (root : FSNode) : List GmlRec :=
  walkGml projName root []

/- ===================================================================
   Part 7.  The export aggregator `export_all_data` (lines 242-294) and
   the scan trigger (lines 20-30, 244-245). -/

/-- Repeated character (`"-" * n`, `"=" * n`). -/
def rep (c : Char) (n : Nat) : List Char := List.replicate n c

/-- The entries a script record contributes: start markers, the raw
content (or the inline error marker when the read raises; the Python
exception text is abstracted), and the end delimiter (lines 256-270). -/
def gmlBlock (fs : FSNode) (r : GmlRec) : List (List Char) :=
  let rel := joinPath (r.relDir ++ [r.fname])
  [cs "// ----- Start GML: " ++ r.display ++ cs " -----",
   cs "// ----- GML Path: " ++ rel ++ cs " -----",
   []] ++
  (match readFileAt fs (r.relDir ++ [r.fname]) with
   | some (some c) => [c]
   | _ => [cs "// ***** ERROR READING GML FILE: " ++ rel ++ cs " *****",
           cs "// ***** Error: <exception> *****"]) ++
  [[], rep '-' 50 ++ cs "[End GML]" ++ rep '-' 19, []]

/-- The entries a descriptor file contributes when it is exported
(lines 274-290). -/
def yyBlock (fs : FSNode) (projName : List Char) (p : List (List Char)) :
    List (List Char) :=
  let rel := joinPath p
  let assetName := (p.dropLast).getLastD projName
  [cs "// ----- Associated YY File: " ++ assetName ++ cs " -----",
   cs "// ----- YY Path: " ++ rel ++ cs " -----",
   []] ++
  (match readFileAt fs p with
   | some (some c) => [c]
   | _ => [cs "// ***** ERROR READING YY FILE: " ++ rel ++ cs " *****",
           cs "// ***** Error: <exception> *****"]) ++
  [[], rep '=' 30 ++ cs "[End YY]" ++ rep '=' 32, []]

/-- The export loop with its `exported_yy_files` set, modelled as the
list of paths added so far (lines 253-293). -/
def exportLoop (fs : FSNode) (projName : List Char) :
    List GmlRec → List (List (List Char)) → List (List Char)
  | [], _ => []
  | r :: rest, exported =>
      gmlBlock fs r ++
      match r.assetYy with
      | some p =>
          if isFileAt fs p ∧ p ∉ exported then
            yyBlock fs projName p ++ exportLoop fs projName rest (p :: exported)
          else exportLoop fs projName rest exported
      | Option.none => exportLoop fs projName rest exported

/-- Claim-side restatement of the deduplication policy: a record's
descriptor block is emitted exactly when the record is the first in the
list to carry that (existing) descriptor link. -/
def effLink (fs : FSNode) (r : GmlRec) : Option (List (List Char)) :=
  match r.assetYy with
  | some p => if isFileAt fs p then some p else Option.none
  | Option.none => Option.none

/-- The descriptor links of a list of records that point at existing
files, in order. -/
def prevLinks (fs : FSNode) (recs : List GmlRec) : List (List (List Char)) :=
  recs.filterMap (effLink fs)

/-- Stateless spelling of the export loop: the block for a linked
descriptor follows a record iff no earlier record links the same file. -/
def exportLoopSpec (fs : FSNode) (projName : List Char) :
    List GmlRec → List GmlRec → List (List Char)
  | _, [] => []
  | prev, r :: rest =>
      gmlBlock fs r ++
      (match effLink fs r with
       | some p => if p ∈ prevLinks fs prev then [] else yyBlock fs projName p
       | Option.none => []) ++
      exportLoopSpec fs projName (prev ++ [r]) rest

/-- Suffix test for the manifest extension. -/
def endsYyp (s : List Char) : Bool := (cs ".yyp").isSuffixOf s

/-- Result of `scan_project` as far as `project_gml_files_details` is
concerned, started from a fresh parser: `Option.none` models the
uncaught exception `os.listdir` raises when the root path names a
regular file; `some Option.none` the returned error value (missing root
or missing `.yyp` manifest), which leaves the detail list empty; and
`some (some recs)` a completed scan (lines 20-30, 61-63). -/
def scanDetails (root : Option FSNode) (projName : List Char) :
    Option (Option (List GmlRec)) :=
  match root with
  | Option.none => some Option.none
  | some (FSNode.file _) => Option.none
  | some (FSNode.dir es) =>
      if (fsNames es).any endsYyp then
        some (some (scanGmlFiles projName (FSNode.dir es)))
      else some Option.none

/-- Outcome of `export_all_data`: either an uncaught exception escapes,
or a text is returned (modelled as its `output_lines` entries; the
source joins them with newlines). -/
inductive ExportOutcome where
  | raised
  | text (entries : List (List Char))

/-- The whole of `export_all_data`, called on a fresh parser: the detail
list is empty, so the scan runs; its returned error value is ignored and
the loop then runs over whatever the detail list holds (lines 242-294). -/
def exportAll (root : Option FSNode) (projName projPathStr : List Char) :
    ExportOutcome :=
  match scanDetails root projName with
  | Option.none => ExportOutcome.raised
  | some od =>
      let recs := od.getD []
      let fs := root.getD (FSNode.dir FSEntries.nil)
      ExportOutcome.text
        ((cs "// GML and YY Data Export from Project: " ++ projPathStr) ::
         (cs "// Total GML Files Found: " ++ natChars recs.length) ::
         rep '=' 70 :: [] ::
         exportLoop fs projName recs [])

/- ===================================================================
   Part 8.  The hierarchical renderers `_format_room_data`
   (lines 296-358) and `_format_object_data` (lines 360-421).
   Both renderers return the `output_lines` entries; the source joins
   them with newlines.  An `Option.none` result models an exception
   raised while formatting, which `get_room_info` / `get_object_info`
   catch and convert into their error value.  Sorting the instance
   counter is modelled for string object names only: mixed-type or
   non-string `Counter` keys (only reachable through a non-string
   `objId.name`) are not modelled and also yield `Option.none`. -/

/-- Branch connector glyph `├──`. -/
def glyphMid : List Char := ['├', '─', '─']

/-- Terminal connector glyph `└──`. -/
def glyphEnd : List Char := ['└', '─', '─']

/-- Vertical-continuation prefix `│   ` (line 308). -/
def contPfx : List Char := ['│', ' ', ' ', ' ']

/-- Blank prefix `    `. -/
def blankPfx : List Char := [' ', ' ', ' ', ' ']

/-- Python's `str.replace("GM", "")`: drop every (non-overlapping,
left-to-right) occurrence. -/
def replaceGM : List Char → List Char
  | [] => []
  | 'G' :: 'M' :: rest => replaceGM rest
  | c :: rest => c :: replaceGM rest

/-- Last-position flags of a loop: `i == len(l) - 1` for each element. -/
def lastFlags : List α → List Bool
  | [] => []
  | _ :: rest => rest.isEmpty :: lastFlags rest

/-- Counter increment: `instance_counts[name] += 1` keeps first-insertion
order. -/
def bumpCount (k : List Char) : List (List Char × Nat) → List (List Char × Nat)
  | [] => [(k, 1)]
  | (k2, c) :: rest =>
      if k2 = k then (k2, c + 1) :: rest else (k2, c) :: bumpCount k rest

/-- Fold the counter over the observed names. -/
def countNamesAux (acc : List (List Char × Nat)) :
    List (List Char) → List (List Char × Nat)
  | [] => acc
  | k :: rest => countNamesAux (bumpCount k acc) rest

/-- The `Counter` of object names, as an assoc list in insertion order. -/
def countNames (l : List (List Char)) : List (List Char × Nat) :=
  countNamesAux [] l

/-- The name `inst.get('objId', {}).get('name', 'UnknownObject')` counted
for one instance (lines 323-324); non-dicts raise, and a non-string name
leaves the modelled fragment (see the part header). -/
def instName1 : PyVal → Option (List Char)
  | PyVal.dict xs =>
      match pdGetD xs (cs "objId") (PyVal.dict PyDict.nil) with
      | PyVal.dict ys =>
          match pdGetD ys (cs "name") (PyVal.str (cs "UnknownObject")) with
          | PyVal.str s => some s
          | _ => Option.none
      | _ => Option.none
  | _ => Option.none

/-- The counted names of every instance in iteration order. -/
def instNames : PyList → Option (List (List Char))
  | PyList.nil => some []
  | PyList.cons v rest => do
      let n ← instName1 v
      let ns ← instNames rest
      pure (n :: ns)

/-- Rendered lines of the sorted `(name, count)` pairs (lines 329-333);
`opc` is the accumulated prefix of the object level. -/
def objCountLines (opc : List Char) : List (List Char × Nat) → List (List Char)
  | [] => []
  | (k, c) :: rest =>
      (opc ++ (if rest = [] then glyphEnd else glyphMid) ++ ' ' :: k ++
        (if 1 < c then cs " (x" ++ natChars c ++ [')'] else [])) ::
      objCountLines opc rest

/-- The `Instances (N)` node and its children for one instance layer
(lines 316-333); nothing is emitted for a falsy `instances` value. -/
def instChunk (lpc : List Char) (instV : PyVal) : Option (List (List Char)) :=
  if pyTruthy instV then do
      let items ← asIter instV
      let names ← instNames items
      let cnt ← pyLen instV
      let sorted := sortLe (fun a b => lexLe a.1 b.1) (countNames names)
      some ((lpc ++ blankPfx ++ glyphEnd ++ ' ' :: cs "Instances (" ++
              natChars cnt ++ [')']) ::
            objCountLines (lpc ++ blankPfx ++ blankPfx) sorted)
  else some []

/-- Lines for one layer (lines 306-333).  The prefix before the layer's
own connector is chosen by the layer's own last-position flag (source
line 308), and the default layer name carries the loop index. -/
def renderLayer (isLast : Bool) (i : Nat) (layer : PyVal) :
    Option (List (List Char)) :=
  match layer with
  | PyVal.dict xs =>
      let lpc := if isLast then blankPfx else contPfx
      let nmV := pdGetD xs (cs "name") (PyVal.str (cs "Unnamed Layer " ++ natChars i))
      match pdGetD xs (cs "__type")
              (pdGetD xs (cs "modelName") (PyVal.str (cs "Unknown"))) with
      | PyVal.str ts =>
          let base := lpc ++ (if isLast then glyphEnd else glyphMid) ++
            ' ' :: pyStr nmV ++ ' ' :: '[' :: replaceGM ts ++ [']']
          if ts = cs "GMInstanceLayer" then
            (instChunk lpc (pdGetD xs (cs "instances") (PyVal.list PyList.nil))).map
              (fun r => base :: r)
          else some [base]
      | _ => Option.none
  | _ => Option.none

/-- The `enumerate(layers)` loop; `i == len(layers) - 1` is tracked as
"no further element follows". -/
def renderLayersLoop : Nat → PyList → Option (List (List Char))
  | _, PyList.nil => some []
  | i, PyList.cons l rest => do
      let a ← renderLayer rest.isNil i l
      let b ← renderLayersLoop (i + 1) rest
      pure (a ++ b)

/-- Lines of the property items (lines 353-356). -/
def propItemLines : List (List Char) → List (List Char)
  | [] => []
  | t :: rest =>
      (blankPfx ++ (if rest = [] then glyphEnd else glyphMid) ++ ' ' :: t) ::
      propItemLines rest

/-- The `Properties` node of a room (lines 336-356); nothing for a falsy
`roomSettings`. -/
def roomPropsChunk (xs : PyDict) : Option (List (List Char)) :=
  match pdGetD xs (cs "roomSettings") (PyVal.dict PyDict.nil) with
  | rs =>
    if pyTruthy rs then
      match rs with
      | PyVal.dict ys => do
          let baseItems :=
            [cs "Width: " ++ pyStr (pdGetD ys (cs "Width") (PyVal.str ['?'])),
             cs "Height: " ++ pyStr (pdGetD ys (cs "Height") (PyVal.str ['?'])),
             cs "Speed: " ++ pyStr (pdGetD ys (cs "Speed") (PyVal.int 30)),
             cs "Persistent: " ++ pyStr (pdGetD xs (cs "isPersistent") (PyVal.bool false))]
          let ccf := pdGetD xs (cs "creationCodeFile") (PyVal.str [])
          let items ←
            if pyTruthy ccf then
              match ccf with
              | PyVal.str s => some (baseItems ++ [cs "Creation Code: " ++ baseName s])
              | _ => Option.none
            else some baseItems
          pure ((glyphEnd ++ ' ' :: cs "Properties") :: propItemLines items)
      | _ => Option.none
    else some []

/-- The room renderer `_format_room_data`, as its `output_lines`. -/
def formatRoomLines (v : PyVal) : Option (List (List Char)) :=
  match v with
  | PyVal.dict xs => do
      let nameLine := pyStr (pdGetD xs (cs "name") (PyVal.str (cs "Unknown Room")))
      let layersV := pdGetD xs (cs "layers") (PyVal.list PyList.nil)
      let n ← pyLen layersV
      let branchy := pyTruthy (pdGetD xs (cs "roomSettings") PyVal.none) ||
                     !(isNoneV (pdGetD xs (cs "isPersistent") PyVal.none))
      let hdr := (if branchy then glyphMid else glyphEnd) ++
                 ' ' :: cs "Layers (" ++ natChars n ++ [')']
      let items ← asIter layersV
      let ls ← renderLayersLoop 0 items
      let props ← roomPropsChunk xs
      pure (nameLine :: hdr :: (ls ++ props))
  | _ => Option.none

/-- Lines like `  Sprite: <name or default>` (lines 370-377): a truthy
reference must be a dict whose `name` is read with the stated default; a
falsy one renders the default string. -/
def refNameLine (tag : List Char) (v : PyVal) (dflt : List Char) :
    Option (List Char) :=
  if pyTruthy v then
    match v with
    | PyVal.dict ys => some (tag ++ pyStr (pdGetD ys (cs "name") (PyVal.str dflt)))
    | _ => Option.none
  else some (tag ++ dflt)

/-- A `  Label: value-or-default` line; the default is rendered as the
Python literal prints (`str(0.5)` etc.). -/
def fieldLine (xs : PyDict) (label key dfltStr : List Char) : List Char :=
  ' ' :: ' ' :: label ++ ':' :: ' ' ::
    (match dlookup xs key with
     | some v => pyStr v
     | Option.none => dfltStr)

/-- One `  - name = value (Type: t)` line (lines 413-417), tolerating the
two field-naming conventions. -/
def objVarLine (p : PyVal) : Option (List Char) :=
  match p with
  | PyVal.dict ys =>
      some (cs "  - " ++
        pyStr (pdGetD ys (cs "name") (pdGetD ys (cs "varName") (PyVal.str (cs "UnknownVar")))) ++
        cs " = " ++
        pyStr (pdGetD ys (cs "value") (pdGetD ys (cs "varValue") (PyVal.str (cs "UnknownVal")))) ++
        cs " (Type: " ++
        pyStr (pdGetD ys (cs "type") (pdGetD ys (cs "varType") (PyVal.str ['?'])))
        ++ [')'])
  | _ => Option.none

/-- The object-variable item lines in iteration order. -/
def objVarLines : PyList → Option (List (List Char))
  | PyList.nil => some []
  | PyList.cons p rest => do
      let a ← objVarLine p
      let b ← objVarLines rest
      pure (a :: b)

/-- The `[Physics Properties]` section with its leading blank entry
(lines 388-406). -/
def physBlock (xs : PyDict) : List (List Char) :=
  if pyTruthy (pdGetD xs (cs "physicsObject") (PyVal.bool false)) then
    [[], cs "[Physics Properties]", cs "  Enabled: True",
     fieldLine xs (cs "Sensor") (cs "physicsSensor") (cs "False"),
     fieldLine xs (cs "Shape") (cs "physicsShape") (cs "1"),
     fieldLine xs (cs "Density") (cs "physicsDensity") (cs "0.5"),
     fieldLine xs (cs "Restitution") (cs "physicsRestitution") (cs "0.1"),
     fieldLine xs (cs "Group") (cs "physicsGroup") (cs "1"),
     fieldLine xs (cs "Linear Damping") (cs "physicsLinearDamping") (cs "0.1"),
     fieldLine xs (cs "Angular Damping") (cs "physicsAngularDamping") (cs "0.1"),
     fieldLine xs (cs "Friction") (cs "physicsFriction") (cs "0.2"),
     fieldLine xs (cs "Awake") (cs "physicsStartAwake") (cs "True"),
     fieldLine xs (cs "Kinematic") (cs "physicsKinematic") (cs "False")]
  else [[], cs "[Physics Properties]", cs "  Enabled: False"]

/-- The object renderer `_format_object_data`, as its `output_lines`.
The ruler of line 365 is `"=" * (len(obj_name) + 8)` on the raw name
value, so a non-sized name (number, boolean, null) raises `TypeError`
and a container name is measured by its element count. -/
def formatObjectLines (v : PyVal) : Option (List (List Char)) :=
  match v with
  | PyVal.dict xs => do
      let nameV := pdGetD xs (cs "name") (PyVal.str (cs "Unknown Object"))
      let nLen ← pyLen nameV
      let l1 ← refNameLine (cs "  Sprite: ") (pdGetD xs (cs "spriteId") PyVal.none) (cs "None")
      let l2 ← refNameLine (cs "  Mask: ") (pdGetD xs (cs "spriteMaskId") PyVal.none)
                 (cs "Same as Sprite")
      let l3 ← refNameLine (cs "  Parent: ") (pdGetD xs (cs "parentObjectId") PyVal.none)
                 (cs "None")
      let nEv ← pyLen (pdGetD xs (cs "eventList") (PyVal.list PyList.nil))
      let propsV := pdGetD xs (cs "properties") (PyVal.list PyList.nil)
      let nPr ← pyLen propsV
      let varLines ←
        if pyTruthy propsV then do
            let items ← asIter propsV
            objVarLines items
        else some [cs "  (None)"]
      pure ((cs "Object: " ++ pyStr nameV) ::
            List.replicate (nLen + 8) '=' ::
            [] :: cs "[Properties]" :: l1 :: l2 :: l3 ::
            fieldLine xs (cs "Visible") (cs "visible") (cs "True") ::
            fieldLine xs (cs "Solid") (cs "solid") (cs "False") ::
            fieldLine xs (cs "Persistent") (cs "persistent") (cs "False") ::
            [] :: (cs "[Events (" ++ natChars nEv ++ cs ")]") ::
            (physBlock xs ++
             ([] :: (cs "[Object Variables (" ++ natChars nPr ++ cs ")]") :: varLines)))
  | _ => Option.none

/- ===================================================================
   Part 9.  The asset inspectors (lines 158-240). -/

/-- Result of `get_room_info` / `get_object_info`: the returned dict
either carries only the error message, or the parsed data with its
rendering (plus path metadata not modelled separately). -/
inductive InfoResult where
  | err (msg : List Char)
  | ok (data : PyVal) (formatted : List (List Char))

/-- Is an inspection result the error value? -/
def InfoResult.isErr : InfoResult → Bool
  | InfoResult.err _ => true
  | InfoResult.ok _ _ => false

/-- Expected descriptor path of a room. -/
def roomYyPath (name : List Char) : List (List Char) :=
  [cs "rooms", name, name ++ cs ".yy"]

/-- Expected descriptor path of an object. -/
def objectYyPath (name : List Char) : List (List Char) :=
  [cs "objects", name, name ++ cs ".yy"]

/-- Shared body of `get_room_info` and `get_object_info`: require the
descriptor file, read it, parse the repaired text, render; each failure
is caught and becomes the error value (lines 158-212). -/
def getAssetInfo (fs : FSNode) (p : List (List Char))
    (render : PyVal → Option (List (List Char)))
    (notFoundMsg parseErrMsg readErrMsg : List Char) : InfoResult :=
  if isFileAt fs p then
    match readFileAt fs p with
    | some (some content) =>
        match jsonParse (repair content) with
        | some d =>
            match render d with
            | some ls => InfoResult.ok d ls
            | Option.none => InfoResult.err readErrMsg
        | Option.none => InfoResult.err parseErrMsg
    | _ => InfoResult.err readErrMsg
  else InfoResult.err notFoundMsg

/-- The room inspector `get_room_info`. -/
def getRoomInfo (fs : FSNode) (name : List Char) : InfoResult :=
  getAssetInfo fs (roomYyPath name) formatRoomLines
    (cs "Room .yy file not found: " ++ joinPath (roomYyPath name))
    (cs "Error parsing room JSON") (cs "Error reading room file")

/-- The object inspector `get_object_info`. -/
def getObjectInfo (fs : FSNode) (name : List Char) : InfoResult :=
  getAssetInfo fs (objectYyPath name) formatObjectLines
    (cs "Object .yy file not found: " ++ joinPath (objectYyPath name))
    (cs "Error parsing object JSON") (cs "Error reading object file")

/-- Result of `get_sprite_info` (lines 214-240): the folder must exist;
the descriptor path is kept only when that file exists; the frames are
the folder's entries with a case-insensitively `.png` name, sorted.
(The `OSError` annotation branch of lines 237-238 is unreachable in this
model, where listing an existing directory always succeeds.) -/
inductive SpriteResult where
  | err (msg : List Char)
  | ok (yyPath : Option (List (List Char))) (frames : List (List Char))

/-- Is a sprite result the error value? -/
def SpriteResult.isErr : SpriteResult → Bool
  | SpriteResult.err _ => true
  | SpriteResult.ok _ _ => false

/-- Folder of a sprite. -/
def spriteDir (name : List Char) : List (List Char) := [cs "sprites", name]

/-- The sprite inspector `get_sprite_info`. -/
def getSpriteInfo (fs : FSNode) (name : List Char) : SpriteResult :=
  let dirP := spriteDir name
  let yyP := dirP ++ [name ++ cs ".yy"]
  if isDirAt fs dirP then
    SpriteResult.ok (if isFileAt fs yyP then some yyP else Option.none)
      ((sortLe lexLe (listNamesAt fs dirP)).filter
        (fun nm => (cs ".png").isSuffixOf (lowerStr nm)))
  else SpriteResult.err (cs "Sprite folder not found: " ++ joinPath dirP)

/- ===================================================================
   Part 10.  Claim-side observations on rendered lines.
   These definitions follow the words of the claims (connector glyphs,
   depth levels, sibling groups, section extraction, detail lines); the
   theorems compare them with the renderer output. -/

/-- Parse the connector of a rendered line: the number of leading
4-character prefix groups (`│   ` or `    `) before a `├──` (branch,
`false`) or `└──` (terminal, `true`) glyph.  Lines without such a shape
carry no connector. -/
def lineConn : List Char → Option (Nat × Bool)
  | '├' :: '─' :: '─' :: _ => some (0, false)
  | '└' :: '─' :: '─' :: _ => some (0, true)
  | '│' :: ' ' :: ' ' :: ' ' :: rest => (lineConn rest).map (fun p => (p.1 + 1, p.2))
  | ' ' :: ' ' :: ' ' :: ' ' :: rest => (lineConn rest).map (fun p => (p.1 + 1, p.2))
  | _ => Option.none

/-- Depth of a line, when it carries a connector. -/
def depthOf (l : List Char) : Option Nat := (lineConn l).map Prod.fst

/-- The connector sequence of a rendering. -/
def connSeq (L : List (List Char)) : List (Nat × Bool) := L.filterMap lineConn

/-- Split the depth-`d` connectors into sibling groups: a connector of a
smaller depth closes the group being collected, deeper connectors are
transparent.  `cur` is the group under collection. -/
def blocksGo (d : Nat) (cur : List Bool) : List (Nat × Bool) → List (List Bool)
  | [] => [cur]
  | (k, g) :: rest =>
      if k < d then cur :: blocksGo d [] rest
      else if k = d then blocksGo d (cur ++ [g]) rest
      else blocksGo d cur rest

/-- Sibling groups of depth `d` in a rendering. -/
def blocksAtDepth (d : Nat) (L : List (List Char)) : List (List Bool) :=
  blocksGo d [] (connSeq L)

/-- The connector-glyph invariant for one sibling group: empty, or every
glyph a branch except a terminal at the very end. -/
def okBlock (b : List Bool) : Prop :=
  b = [] ∨ b = List.replicate (b.length - 1) false ++ [true]

/-- Shape of the connectors below one layer line: nothing, or a terminal
`Instances` node at depth 2 over a last-terminated run at depth 3. -/
def TailOk (t : List (Nat × Bool)) : Prop :=
  t = [] ∨ ∃ m, t = (2, true) :: (List.replicate m false ++ [true]).map (fun b => (3, b))

/-- Connector shape of a rendered layer sequence: `n` layers, each a
depth-1 connector (terminal exactly on the last) over a `TailOk` tail. -/
inductive LayerBlocks : List (Nat × Bool) → Nat → Prop
  | nil : LayerBlocks [] 0
  | one (t : List (Nat × Bool)) (ht : TailOk t) : LayerBlocks ((1, true) :: t) 1
  | more (t rest : List (Nat × Bool)) (n : Nat) (ht : TailOk t)
      (h : LayerBlocks rest (n + 1)) :
      LayerBlocks ((1, false) :: (t ++ rest)) (n + 2)

/-- The proviso under which the room's top-level sibling group closes
properly: an explicitly present persistence flag comes with a truthy
room-settings value. -/
def persistProviso (v : PyVal) : Prop :=
  match v with
  | PyVal.dict xs =>
      isNoneV (pdGetD xs (cs "isPersistent") PyVal.none) = false →
      pyTruthy (pdGetD xs (cs "roomSettings") PyVal.none) = true
  | _ => True

/-- Entries after the first entry equal to `hdr`. -/
def afterFirst (hdr : List Char) : List (List Char) → List (List Char)
  | [] => []
  | l :: rest => if l = hdr then rest else afterFirst hdr rest

/-- The section under the header entry `hdr`: its entries up to the next
blank entry. -/
def sectionAt (hdr : List Char) (L : List (List Char)) : List (List Char) :=
  (afterFirst hdr L).takeWhile (fun l => !l.isEmpty)

/-- First entry satisfying a test. -/
def findFirstP (p : List Char → Bool) : List (List Char) → Option (List Char)
  | [] => Option.none
  | l :: rest => if p l then some l else findFirstP p rest

/-- Entries after the first entry satisfying a test. -/
def afterFirstP (p : List Char → Bool) : List (List Char) → List (List Char)
  | [] => []
  | l :: rest => if p l then rest else afterFirstP p rest

/-- The section under the first header satisfying `p`. -/
def sectionAtP (p : List Char → Bool) (L : List (List Char)) : List (List Char) :=
  (afterFirstP p L).takeWhile (fun l => !l.isEmpty)

/-- The final section of a rendering: the entries after the last blank
entry. -/
def lastSection (L : List (List Char)) : List (List Char) :=
  ((L.reverse).takeWhile (fun l => !l.isEmpty)).reverse

/-- The layers section of a room rendering: everything after the name
line and the `Layers (N)` header, up to the first depth-0 connector
(the `Properties` node). -/
def layersSection (L : List (List Char)) : List (List Char) :=
  (L.drop 2).takeWhile (fun l => !(depthOf l == some 0))

/-- Test for a depth-1 connector (a layer detail line). -/
def isDepth1 (l : List Char) : Bool := depthOf l == some 1

/-- Test for the events count header. -/
def isEventsHdr (l : List Char) : Bool := (cs "[Events (").isPrefixOf l

/-- Test for an object-variable detail line. -/
def isVarItem (l : List Char) : Bool := (cs "  - ").isPrefixOf l

/- ===================================================================
   Part 11.  Concrete fixtures used by counterexamples and witnesses. -/

/-- Record `{"isPersistent": false}`: carries a persistence flag but no
room settings. -/
def rmPersistOnly : PyVal :=
  PyVal.dict (PyDict.cons (cs "isPersistent") (PyVal.bool false) PyDict.nil)

/-- An instance referencing `obj_player`. -/
def instPlayer : PyVal :=
  PyVal.dict (PyDict.cons (cs "objId")
    (PyVal.dict (PyDict.cons (cs "name") (PyVal.str (cs "obj_player")) PyDict.nil))
    PyDict.nil)

/-- The spec's example room `rm_test` with one instance layer holding
`obj_player` twice. -/
def rmTest : PyVal :=
  PyVal.dict (PyDict.cons (cs "name") (PyVal.str (cs "rm_test"))
    (PyDict.cons (cs "layers") (PyVal.list (PyList.cons
      (PyVal.dict (PyDict.cons (cs "name") (PyVal.str (cs "Instances"))
        (PyDict.cons (cs "__type") (PyVal.str (cs "GMInstanceLayer"))
          (PyDict.cons (cs "instances")
            (PyVal.list (PyList.cons instPlayer (PyList.cons instPlayer PyList.nil)))
            PyDict.nil))))
      PyList.nil)) PyDict.nil))

/-- Record `{"physicsObject": true}`. -/
def objPhysOnly : PyVal :=
  PyVal.dict (PyDict.cons (cs "physicsObject") (PyVal.bool true) PyDict.nil)

/-- Record `{"eventList": [{}]}`: one event. -/
def objOneEvent : PyVal :=
  PyVal.dict (PyDict.cons (cs "eventList")
    (PyVal.list (PyList.cons (PyVal.dict PyDict.nil) PyList.nil)) PyDict.nil)

/-- A small project tree: a manifest, a well-formed script asset, a
reserved `options` folder hiding a nested script, and a sprite folder
with a frame but no descriptor. -/
def fsWit : FSNode :=
  FSNode.dir
    (FSEntries.cons (cs "proj.yyp") (FSNode.file (some (cs "manifest")))
    (FSEntries.cons (cs "scripts")
      (FSNode.dir (FSEntries.cons (cs "foo")
        (FSNode.dir (FSEntries.cons (cs "foo.gml") (FSNode.file (some (cs "fn")))
          (FSEntries.cons (cs "foo.yy") (FSNode.file (some (cs "yy-data")))
            FSEntries.nil)))
        FSEntries.nil))
    (FSEntries.cons (cs "options")
      (FSNode.dir (FSEntries.cons (cs "deep")
        (FSNode.dir (FSEntries.cons (cs "hidden.gml") (FSNode.file (some (cs "x")))
          FSEntries.nil))
        FSEntries.nil))
    (FSEntries.cons (cs "sprites")
      (FSNode.dir (FSEntries.cons (cs "spr1")
        (FSNode.dir (FSEntries.cons (cs "frame0.PNG") (FSNode.file (some (cs "img")))
          FSEntries.nil))
        FSEntries.nil))
      FSEntries.nil))))

/- ===================================================================
   Part 11b.  Further claim-side helpers for the connector claims. -/

/-- Glyph flags of the depth-`d` connectors of a sequence, in order. -/
def dFlags (d : Nat) : List (Nat × Bool) → List Bool
  | [] => []
  | (k, g) :: rest => if k = d then g :: dFlags d rest else dFlags d rest

/-- The sequence is empty or opens with a connector of depth below `d`. -/
def startsShallow (d : Nat) (l : List (Nat × Bool)) : Prop :=
  l = [] ∨ ∃ k g r, l = (k, g) :: r ∧ k < d

instance (b : List Bool) : Decidable (okBlock b) := by
  unfold okBlock
  infer_instance

instance (v : PyVal) : Decidable (persistProviso v) := by
  unfold persistProviso
  cases v <;> infer_instance

/-- Rendered lines of the empty room record `{}`. -/
def roomNilLines : List (List Char) :=
  [cs "Unknown Room", cs "└── Layers (0)"]

/-- Rendered lines of the empty object record `{}`. -/
def objNilLines : List (List Char) :=
  [cs "Object: Unknown Object", cs "======================", [], cs "[Properties]",
   cs "  Sprite: None", cs "  Mask: Same as Sprite", cs "  Parent: None",
   cs "  Visible: True", cs "  Solid: False", cs "  Persistent: False",
   [], cs "[Events (0)]", [], cs "[Physics Properties]", cs "  Enabled: False",
   [], cs "[Object Variables (0)]", cs "  (None)"]

/-- Rendered lines of the one-event object record `{"eventList": [{}]}`. -/
def objOneEventLines : List (List Char) :=
  [cs "Object: Unknown Object", cs "======================", [], cs "[Properties]",
   cs "  Sprite: None", cs "  Mask: Same as Sprite", cs "  Parent: None",
   cs "  Visible: True", cs "  Solid: False", cs "  Persistent: False",
   [], cs "[Events (1)]", [], cs "[Physics Properties]", cs "  Enabled: False",
   [], cs "[Object Variables (0)]", cs "  (None)"]

/- ===================================================================
   Theorems.
   Part 12.  The repair pass: equations and basic facts. -/

theorem closeAfterWs_nil_eq {l : List Char} (hdw : l.dropWhile isSpace = []) :
    closeAfterWs l = Option.none := by
  unfold closeAfterWs; rw [hdw]

theorem closeAfterWs_cons_eq {l : List Char} {e : Char} {rest : List Char}
    (hdw : l.dropWhile isSpace = e :: rest) :
    closeAfterWs l = if isCloser e then some (e, rest) else Option.none := by
  unfold closeAfterWs; rw [hdw]

theorem closeAfterWs_some_length {l : List Char} {d : Char} {r : List Char}
    (h : closeAfterWs l = some (d, r)) : r.length < l.length := by
  cases hdw : l.dropWhile isSpace with
  | nil => rw [closeAfterWs_nil_eq hdw] at h; cases h
  | cons e rest =>
      rw [closeAfterWs_cons_eq hdw] at h
      by_cases hc : isCloser e = true
      · rw [if_pos hc] at h
        simp only [Option.some.injEq, Prod.mk.injEq] at h
        obtain ⟨_, rfl⟩ := h
        have h1 : (l.dropWhile isSpace).length ≤ l.length :=
          (List.dropWhile_suffix isSpace).length_le
        rw [hdw] at h1
        simp only [List.length_cons] at h1
        omega
      · rw [if_neg hc] at h; cases h

theorem closeAfterWs_some_closer {l : List Char} {d : Char} {r : List Char}
    (h : closeAfterWs l = some (d, r)) : isCloser d = true := by
  cases hdw : l.dropWhile isSpace with
  | nil => rw [closeAfterWs_nil_eq hdw] at h; cases h
  | cons e rest =>
      rw [closeAfterWs_cons_eq hdw] at h
      by_cases hc : isCloser e = true
      · rw [if_pos hc] at h
        simp only [Option.some.injEq, Prod.mk.injEq] at h
        obtain ⟨rfl, _⟩ := h
        exact hc
      · rw [if_neg hc] at h; cases h

theorem closeAfterWs_suffix {l : List Char} {d : Char} {r : List Char}
    (h : closeAfterWs l = some (d, r)) : r <:+ l := by
  cases hdw : l.dropWhile isSpace with
  | nil => rw [closeAfterWs_nil_eq hdw] at h; cases h
  | cons e rest =>
      rw [closeAfterWs_cons_eq hdw] at h
      by_cases hc : isCloser e = true
      · rw [if_pos hc] at h
        simp only [Option.some.injEq, Prod.mk.injEq] at h
        obtain ⟨_, rfl⟩ := h
        exact (List.suffix_cons e rest).trans (hdw ▸ List.dropWhile_suffix isSpace)
      · rw [if_neg hc] at h; cases h

theorem repairFuel_congr : ∀ (f1 f2 : Nat) (l : List Char),
    l.length ≤ f1 → l.length ≤ f2 → repairFuel f1 l = repairFuel f2 l := by
  intro f1
  induction f1 with
  | zero =>
      intro f2 l h1 _
      have hl : l = [] := List.length_eq_zero.mp (Nat.le_zero.mp h1)
      subst hl; cases f2 <;> rfl
  | succ f ih =>
      intro f2 l h1 h2
      cases l with
      | nil => cases f2 <;> rfl
      | cons c rest =>
          cases f2 with
          | zero => simp at h2
          | succ f2' =>
              simp only [List.length_cons, Nat.succ_le_succ_iff] at h1 h2
              simp only [repairFuel]
              by_cases hc : c = ','
              · simp only [if_pos hc]
                cases hca : closeAfterWs rest with
                | none => exact congrArg (c :: ·) (ih f2' rest h1 h2)
                | some p =>
                    obtain ⟨d, r2⟩ := p
                    have hlt : r2.length < rest.length := closeAfterWs_some_length hca
                    exact congrArg (d :: ·) (ih f2' r2 (by omega) (by omega))
              · simp only [if_neg hc]
                exact congrArg (c :: ·) (ih f2' rest h1 h2)

theorem repair_cons_match {c d : Char} {rest r2 : List Char} (hc : c = ',')
    (h : closeAfterWs rest = some (d, r2)) : repair (c :: rest) = d :: repair r2 := by
  have hl : r2.length < rest.length := closeAfterWs_some_length h
  show repairFuel (c :: rest).length (c :: rest) = _
  simp only [List.length_cons, repairFuel, if_pos hc, h]
  exact congrArg (d :: ·) (repairFuel_congr rest.length r2.length r2 (by omega) (by omega))

theorem repair_cons_nomatch {c : Char} {rest : List Char} (hc : c = ',')
    (h : closeAfterWs rest = Option.none) : repair (c :: rest) = c :: repair rest := by
  show repairFuel (c :: rest).length (c :: rest) = _
  simp only [List.length_cons, repairFuel, if_pos hc, h]
  rfl

theorem repair_cons_other {c : Char} {rest : List Char} (hc : ¬ c = ',') :
    repair (c :: rest) = c :: repair rest := by
  show repairFuel (c :: rest).length (c :: rest) = _
  simp only [List.length_cons, repairFuel, if_neg hc]
  rfl

theorem isSpace_ne_comma {c : Char} (h : isSpace c = true) : c ≠ ',' := by
  intro hc; subst hc; exact absurd h (by decide)

theorem isCloser_ne_comma {c : Char} (h : isCloser c = true) : c ≠ ',' := by
  intro hc; subst hc; exact absurd h (by decide)

theorem isCloser_not_space {c : Char} (h : isCloser c = true) : isSpace c = false := by
  simp only [isCloser, Bool.or_eq_true, decide_eq_true_eq] at h
  rcases h with rfl | rfl <;> decide

theorem hasMatch_cons_iff {c : Char} {rest : List Char} :
    hasMatch (c :: rest) = false ↔
      ((c = ',' → closeAfterWs rest = Option.none) ∧ hasMatch rest = false) := by
  simp only [hasMatch, Bool.or_eq_false_iff, Bool.and_eq_false_iff,
    decide_eq_false_iff_not]
  constructor
  · rintro ⟨h1 | h1, h2⟩
    · exact ⟨fun hc => absurd hc h1, h2⟩
    · exact ⟨fun _ => Option.not_isSome_iff_eq_none.mp (by simp [h1]), h2⟩
  · rintro ⟨h1, h2⟩
    by_cases hc : c = ','
    · refine ⟨Or.inr ?_, h2⟩
      simp [h1 hc]
    · exact ⟨Or.inl hc, h2⟩

theorem hasMatch_of_no_comma : ∀ {l : List Char}, (∀ c ∈ l, c ≠ ',') →
    hasMatch l = false := by
  intro l
  induction l with
  | nil => intro _; rfl
  | cons c rest ih =>
      intro h
      rw [hasMatch_cons_iff]
      exact ⟨fun hc => absurd hc (h c (List.mem_cons_self c rest)),
        ih fun x hx => h x (List.mem_cons_of_mem c hx)⟩

theorem repair_of_no_match : ∀ {t : List Char}, hasMatch t = false → repair t = t := by
  intro t
  induction t with
  | nil => intro _; rfl
  | cons c rest ih =>
      intro h
      rw [hasMatch_cons_iff] at h
      obtain ⟨h1, h2⟩ := h
      by_cases hc : c = ','
      · rw [repair_cons_nomatch hc (h1 hc), ih h2]
      · rw [repair_cons_other hc, ih h2]

theorem dropWhile_append_all {p : Char → Bool} :
    ∀ {ws : List Char}, (∀ c ∈ ws, p c = true) →
    ∀ l, (ws ++ l).dropWhile p = l.dropWhile p := by
  intro ws
  induction ws with
  | nil => intro _ l; rfl
  | cons w ws ih =>
      intro h l
      rw [List.cons_append, List.dropWhile_cons,
        if_pos (h w (List.mem_cons_self w ws))]
      exact ih (fun x hx => h x (List.mem_cons_of_mem w hx)) l

theorem dropWhile_append_head {p : Char → Bool} :
    ∀ {l : List Char} {e : Char} {r : List Char}, l.dropWhile p = e :: r →
    ∀ x, (l ++ x).dropWhile p = e :: (r ++ x) := by
  intro l
  induction l with
  | nil => intro e r h; cases h
  | cons a l2 ih =>
      intro e r h x
      rw [List.dropWhile_cons] at h
      by_cases hp : p a = true
      · rw [if_pos hp] at h
        rw [List.cons_append, List.dropWhile_cons, if_pos hp]
        exact ih h x
      · rw [if_neg hp] at h
        cases h
        rw [List.cons_append, List.dropWhile_cons, if_neg hp]

theorem dropWhile_head_not {p : Char → Bool} :
    ∀ {l : List Char} {e : Char} {r : List Char}, l.dropWhile p = e :: r →
    p e = false := by
  intro l
  induction l with
  | nil => intro e r h; cases h
  | cons a l2 ih =>
      intro e r h
      rw [List.dropWhile_cons] at h
      by_cases hp : p a = true
      · rw [if_pos hp] at h; exact ih h
      · rw [if_neg hp] at h
        cases h
        exact Bool.eq_false_iff.mpr hp

theorem repair_space_append : ∀ {ws : List Char}, (∀ c ∈ ws, isSpace c = true) →
    ∀ l, repair (ws ++ l) = ws ++ repair l := by
  intro ws
  induction ws with
  | nil => intro _ l; rfl
  | cons w ws ih =>
      intro h l
      rw [List.cons_append,
        repair_cons_other (isSpace_ne_comma (h w (List.mem_cons_self w ws))),
        ih (fun x hx => h x (List.mem_cons_of_mem w hx)) l, List.cons_append]

theorem closeAfterWs_ws_append {ws : List Char} (h : ∀ c ∈ ws, isSpace c = true)
    (l : List Char) : closeAfterWs (ws ++ l) = closeAfterWs l := by
  unfold closeAfterWs
  rw [dropWhile_append_all h]

theorem closeAfterWs_append_comma {l z : List Char}
    (h : closeAfterWs l = Option.none) :
    closeAfterWs (l ++ ',' :: z) = Option.none := by
  cases hdw : l.dropWhile isSpace with
  | nil =>
      have hall : ∀ c ∈ l, isSpace c = true := List.dropWhile_eq_nil_iff.mp hdw
      rw [closeAfterWs_ws_append hall]
      have hd : (',' :: z).dropWhile isSpace = ',' :: z :=
        List.dropWhile_cons_of_neg (by decide)
      rw [closeAfterWs_cons_eq hd, if_neg (by decide)]
  | cons e rest =>
      rw [closeAfterWs_cons_eq (dropWhile_append_head hdw (',' :: z))]
      rw [closeAfterWs_cons_eq hdw] at h
      by_cases hc : isCloser e = true
      · rw [if_pos hc] at h; cases h
      · rw [if_neg hc]

theorem repair_append_match :
    ∀ (pre : List Char) {ws : List Char} {cl : Char} {suf : List Char},
    hasMatch pre = false → (∀ c ∈ ws, isSpace c = true) → isCloser cl = true →
    repair (pre ++ ',' :: (ws ++ cl :: suf)) = pre ++ cl :: repair suf := by
  intro pre
  induction pre with
  | nil =>
      intro ws cl suf _ hws hcl
      have hca : closeAfterWs (ws ++ cl :: suf) = some (cl, suf) := by
        rw [closeAfterWs_ws_append hws]
        have hd : (cl :: suf).dropWhile isSpace = cl :: suf :=
          List.dropWhile_cons_of_neg (by rw [isCloser_not_space hcl]; decide)
        rw [closeAfterWs_cons_eq hd, if_pos hcl]
      simpa using repair_cons_match rfl hca
  | cons p pre2 ih =>
      intro ws cl suf hm hws hcl
      rw [hasMatch_cons_iff] at hm
      obtain ⟨h1, h2⟩ := hm
      by_cases hp : p = ','
      · have hnone : closeAfterWs (pre2 ++ ',' :: (ws ++ cl :: suf)) = Option.none :=
          closeAfterWs_append_comma (h1 hp)
        rw [List.cons_append, repair_cons_nomatch hp hnone, ih h2 hws hcl,
          List.cons_append]
      · rw [List.cons_append, repair_cons_other hp, ih h2 hws hcl, List.cons_append]

theorem hasChain_cons_iff {c : Char} {rest : List Char} :
    hasChain (c :: rest) = false ↔
      ((c = ',' → chainTail rest = false) ∧ hasChain rest = false) := by
  simp only [hasChain, Bool.or_eq_false_iff, Bool.and_eq_false_iff,
    decide_eq_false_iff_not]
  constructor
  · rintro ⟨h1 | h1, h2⟩
    · exact ⟨fun hc => absurd hc h1, h2⟩
    · exact ⟨fun _ => h1, h2⟩
  · rintro ⟨h1, h2⟩
    by_cases hc : c = ','
    · exact ⟨Or.inr (h1 hc), h2⟩
    · exact ⟨Or.inl hc, h2⟩

theorem hasChain_suffix : ∀ {l1 l2 : List Char}, l1 <:+ l2 →
    hasChain l2 = false → hasChain l1 = false := by
  rintro l1 l2 ⟨t, rfl⟩
  induction t with
  | nil => intro h; simpa using h
  | cons a t ih =>
      intro h
      rw [List.cons_append, hasChain_cons_iff] at h
      exact ih h.2

theorem chainTail_comma_eq {l l2 : List Char}
    (hdw : l.dropWhile isSpace = ',' :: l2) :
    chainTail l = (closeAfterWs l2).isSome := by
  unfold chainTail
  rw [hdw]
  split
  · rename_i l3 heq
    injection heq with h1 h2
    rw [h2]
  · rename_i hne
    exact absurd rfl (hne l2)

theorem closeAfterWs_repair_none {l : List Char}
    (h : closeAfterWs l = Option.none) (hct : chainTail l = false) :
    closeAfterWs (repair l) = Option.none := by
  cases hdw : l.dropWhile isSpace with
  | nil =>
      have hall : ∀ c ∈ l, isSpace c = true := List.dropWhile_eq_nil_iff.mp hdw
      rw [repair_of_no_match (hasMatch_of_no_comma fun c hc => isSpace_ne_comma (hall c hc))]
      exact h
  | cons e rest =>
      have htw : ∀ c ∈ l.takeWhile isSpace, isSpace c = true :=
        fun c hc => List.mem_takeWhile_imp hc
      have hesp : isSpace e = false := dropWhile_head_not hdw
      have hl : l = l.takeWhile isSpace ++ e :: rest := by
        conv_lhs => rw [← List.takeWhile_append_dropWhile isSpace l]
        rw [hdw]
      rw [hl, repair_space_append htw, closeAfterWs_ws_append htw]
      have hclo : isCloser e = false := by
        rw [closeAfterWs_cons_eq hdw] at h
        by_cases hc : isCloser e = true
        · rw [if_pos hc] at h; cases h
        · exact Bool.eq_false_iff.mpr hc
      by_cases he : e = ','
      · have hctr : closeAfterWs rest = Option.none := by
          rw [chainTail_comma_eq (he ▸ hdw)] at hct
          exact Option.not_isSome_iff_eq_none.mp (by simp [hct])
        rw [repair_cons_nomatch he hctr]
        have hd : (e :: repair rest).dropWhile isSpace = e :: repair rest :=
          List.dropWhile_cons_of_neg (by rw [hesp]; decide)
        rw [closeAfterWs_cons_eq hd, if_neg (by rw [hclo]; decide)]
      · rw [repair_cons_other he]
        have hd : (e :: repair rest).dropWhile isSpace = e :: repair rest :=
          List.dropWhile_cons_of_neg (by rw [hesp]; decide)
        rw [closeAfterWs_cons_eq hd, if_neg (by rw [hclo]; decide)]

theorem hasMatch_repair_aux : ∀ (n : Nat) (t : List Char), t.length ≤ n →
    hasChain t = false → hasMatch (repair t) = false := by
  intro n
  induction n with
  | zero =>
      intro t h1 _
      have hl : t = [] := List.length_eq_zero.mp (Nat.le_zero.mp h1)
      subst hl; rfl
  | succ n ih =>
      intro t h1 h2
      cases t with
      | nil => rfl
      | cons c rest =>
          simp only [List.length_cons, Nat.succ_le_succ_iff] at h1
          rw [hasChain_cons_iff] at h2
          obtain ⟨hc1, hc2⟩ := h2
          by_cases hc : c = ','
          · cases hca : closeAfterWs rest with
            | some p =>
                obtain ⟨d, r2⟩ := p
                rw [repair_cons_match hc hca, hasMatch_cons_iff]
                refine ⟨fun hd => absurd hd (isCloser_ne_comma (closeAfterWs_some_closer hca)), ?_⟩
                have hlen : r2.length ≤ n := by
                  have := closeAfterWs_some_length hca; omega
                exact ih r2 hlen (hasChain_suffix (closeAfterWs_suffix hca) hc2)
            | none =>
                rw [repair_cons_nomatch hc hca, hasMatch_cons_iff]
                exact ⟨fun _ => closeAfterWs_repair_none hca (hc1 hc),
                  ih rest h1 hc2⟩
          · rw [repair_cons_other hc, hasMatch_cons_iff]
            exact ⟨fun hd => absurd hd hc, ih rest h1 hc2⟩

/- ===================================================================
   Part 13.  Claims C1 and C2. -/

/-- Claim C1, counterexample.  The claim describes the removed pattern as
"a sequence of whitespace followed by a comma that is immediately
followed by a closing bracket or closing brace" and says the pass changes
nothing else.  In the text `", ]"` that pattern does not occur (the comma
is not immediately followed by a closer, as `specRemoveC1` confirms by
leaving the text unchanged), yet the loader's pass deletes the comma and
the whitespace after it: the regex puts the whitespace after the comma. -/
theorem repair_differs_from_claimed_pattern :
    repair [',', ' ', ']'] = [']'] ∧
    specRemoveC1 [',', ' ', ']'] = [',', ' ', ']'] ∧
    decide (repair [',', ' ', ']'] = [',', ' ', ']']) = false := by
  exact ⟨by decide, by decide, by decide⟩

/-- Claim C1, amended: the repair pass removes every occurrence of a
comma followed by a sequence of whitespace that is immediately followed
by a closing bracket or brace (left to right, not just the first
occurrence), changes nothing else, and repairs the example text
`{"a": 1, "b": [2, 3,],}` into `{"a": 1, "b": [2, 3]}`, which parses to
the mapping `{a: 1, b: [2, 3]}`.  The first conjunct is the "changes
nothing else" half (identity on texts without the pattern); the second
removes the leftmost occurrence and leaves the prefix untouched, so by
recursion every occurrence goes; the last two settle the example. -/
theorem repair_removal_characterization :
    (∀ t : List Char, hasMatch t = false → repair t = t) ∧
    (∀ (pre ws : List Char) (cl : Char) (suf : List Char),
        hasMatch pre = false → (∀ c ∈ ws, isSpace c = true) → isCloser cl = true →
        repair (pre ++ ',' :: (ws ++ cl :: suf)) = pre ++ cl :: repair suf) ∧
    repair exampleRaw = exampleFixed ∧
    jsonParse exampleFixed =
      some (PyVal.dict (PyDict.cons (cs "a") (PyVal.int 1)
        (PyDict.cons (cs "b") (PyVal.list (PyList.cons (PyVal.int 2)
          (PyList.cons (PyVal.int 3) PyList.nil))) PyDict.nil))) :=
  ⟨fun _ h => repair_of_no_match h,
   fun pre _ _ _ h1 h2 h3 => repair_append_match pre h1 h2 h3,
   by decide, by rfl⟩

/-- Claim C2, counterexample.  The repair pass is not idempotent: in
`",,]"` the first pass deletes only the inner comma (the outer one is
not followed by a closer yet), producing `",]"`, in which a second pass
finds a fresh match and yields `"]"`. -/
theorem repair_not_idempotent :
    repair [',', ',', ']'] = [',', ']'] ∧
    repair (repair [',', ',', ']']) = [']'] ∧
    decide (repair (repair [',', ',', ']']) = repair [',', ',', ']']) = false := by
  exact ⟨by decide, by decide, by decide⟩

/-- Claim C2, amended: the repair pass is idempotent on every text that
contains no occurrence of the chained pattern "comma, whitespace, comma,
whitespace, closing bracket or brace" (deleting a match can glue a
preceding comma onto the closer only through such a chain); on all other
counts repairing already-repaired text changes nothing. -/
theorem repair_idempotent_of_no_chain (t : List Char) (h : hasChain t = false) :
    repair (repair t) = repair t :=
  repair_of_no_match (hasMatch_repair_aux t.length t (Nat.le_refl _) h)

/-- Witness for the amended C2 at the spec's example text. -/
theorem repair_idempotent_of_no_chain_witness :
    repair (repair exampleRaw) = repair exampleRaw :=
  repair_idempotent_of_no_chain exampleRaw (by decide)

/- ===================================================================
   Part 14.  Claim C5: reserved-folder pruning of the full-tree scan. -/

theorem mkGmlRec_relDir (projName : List Char) (es : FSEntries)
    (rel : List (List Char)) (f : List Char) :
    (mkGmlRec projName es rel f).relDir = rel := rfl

theorem hereGmlRecs_relDir {projName : List Char} {es : FSEntries}
    {rel : List (List Char)} {r : GmlRec} (h : r ∈ hereGmlRecs projName es rel) :
    r.relDir = rel := by
  simp only [hereGmlRecs, List.mem_map] at h
  obtain ⟨f, _, rfl⟩ := h
  rfl

theorem walkGml_file_eq (projName : List Char) (c : Option (List Char))
    (rel : List (List Char)) : walkGml projName (FSNode.file c) rel = [] := by
  rw [walkGml.eq_def]

theorem walkGml_dir_eq (projName : List Char) (es : FSEntries)
    (rel : List (List Char)) :
    walkGml projName (FSNode.dir es) rel =
      if prunedRel rel then [] else
        hereGmlRecs projName es rel ++ walkSubs projName es rel := by
  rw [walkGml.eq_def]

theorem walkSubs_nil_eq (projName : List Char) (rel : List (List Char)) :
    walkSubs projName FSEntries.nil rel = [] := by
  rw [walkSubs.eq_def]

theorem walkSubs_cons_dir_eq (projName : List Char) (nm : List Char)
    (es2 : FSEntries) (rest : FSEntries) (rel : List (List Char)) :
    walkSubs projName (FSEntries.cons nm (FSNode.dir es2) rest) rel =
      walkGml projName (FSNode.dir es2) (rel ++ [nm]) ++
        walkSubs projName rest rel := by
  rw [walkSubs.eq_def]

theorem walkSubs_cons_file_eq (projName : List Char) (nm : List Char)
    (c : Option (List Char)) (rest : FSEntries) (rel : List (List Char)) :
    walkSubs projName (FSEntries.cons nm (FSNode.file c) rest) rel =
      walkSubs projName rest rel := by
  rw [walkSubs.eq_def]; rfl

mutual
theorem walkGml_not_reserved (projName : List Char) :
    ∀ (nd : FSNode) (rel : List (List Char)) (r : GmlRec),
    r ∈ walkGml projName nd rel →
    ∀ (c : List Char) (rest2 : List (List Char)), r.relDir = c :: rest2 →
    lowerStr c ∉ reservedTop
  | FSNode.file _, rel, r, hr => by rw [walkGml_file_eq] at hr; cases hr
  | FSNode.dir es, rel, r, hr => by
      rw [walkGml_dir_eq] at hr
      by_cases hp : prunedRel rel = true
      · rw [if_pos hp] at hr; cases hr
      · rw [if_neg hp] at hr
        intro c rest2 hc hmem
        rw [List.mem_append] at hr
        rcases hr with hr | hr
        · have hrel : rel = c :: rest2 := (hereGmlRecs_relDir hr) ▸ hc
          apply hp
          rw [hrel]
          simp only [prunedRel, decide_eq_true_eq]
          exact hmem
        · exact walkSubs_not_reserved projName es rel r hr c rest2 hc hmem
theorem walkSubs_not_reserved (projName : List Char) :
    ∀ (es : FSEntries) (rel : List (List Char)) (r : GmlRec),
    r ∈ walkSubs projName es rel →
    ∀ (c : List Char) (rest2 : List (List Char)), r.relDir = c :: rest2 →
    lowerStr c ∉ reservedTop
  | FSEntries.nil, rel, r, hr => by rw [walkSubs_nil_eq] at hr; cases hr
  | FSEntries.cons nm nd rest, rel, r, hr => by
      cases nd with
      | dir es2 =>
          rw [walkSubs_cons_dir_eq, List.mem_append] at hr
          rcases hr with hr | hr
          · exact walkGml_not_reserved projName (FSNode.dir es2) (rel ++ [nm]) r hr
          · exact walkSubs_not_reserved projName rest rel r hr
      | file c2 =>
          rw [walkSubs_cons_file_eq] at hr
          exact walkSubs_not_reserved projName rest rel r hr
end

/-- Claim C5: a script record of the full-tree pass never lies under a
top-level folder whose lowercased name is reserved (`options`,
`datafiles`, `configs`, `.git`, `.vscode`, `temp`), at any depth: the
first component of every record's relative directory is unreserved
(records with an empty relative directory sit at the project root,
outside any folder). -/
theorem scan_prunes_reserved_folders (projName : List Char) (root : FSNode)
    (r : GmlRec) (hr : r ∈ scanGmlFiles projName root) (c : List Char)
    (rest2 : List (List Char)) (hc : r.relDir = c :: rest2) :
    lowerStr c ∉ reservedTop :=
  walkGml_not_reserved projName root [] r hr c rest2 hc

/-- Witness for C5 at the concrete tree `fsWit`: the record of
`scripts/foo/foo.gml` is in the scan and its top folder is unreserved. -/
theorem scan_prunes_reserved_folders_witness :
    decide (lowerStr (cs "scripts") ∈ reservedTop) = false :=
  decide_eq_false
    (scan_prunes_reserved_folders (cs "proj") fsWit
      ⟨cs "foo / foo", [cs "scripts", cs "foo"], cs "foo.gml",
       some [cs "scripts", cs "foo", cs "foo.yy"]⟩
      (by decide) (cs "scripts") [cs "foo"] (by decide))

/- ===================================================================
   Part 15.  Claim C6: deduplication of descriptor blocks in the export. -/

theorem prevLinks_snoc (fs : FSNode) (prev : List GmlRec) (r : GmlRec) :
    prevLinks fs (prev ++ [r]) =
      prevLinks fs prev ++ (effLink fs r).toList := by
  simp only [prevLinks, List.filterMap_append, List.filterMap]
  cases effLink fs r <;> rfl

theorem exportLoop_eq_spec_aux (fs : FSNode) (projName : List Char) :
    ∀ (rest : List GmlRec) (exported : List (List (List Char)))
      (prev : List GmlRec),
    (∀ p, p ∈ exported ↔ p ∈ prevLinks fs prev) →
    exportLoop fs projName rest exported = exportLoopSpec fs projName prev rest := by
  intro rest
  induction rest with
  | nil => intro exported prev _; rfl
  | cons r rest ih =>
      intro exported prev hinv
      cases hy : r.assetYy with
      | none =>
          have he : effLink fs r = Option.none := by simp [effLink, hy]
          have hnext : ∀ q, q ∈ exported ↔ q ∈ prevLinks fs (prev ++ [r]) := by
            intro q
            rw [prevLinks_snoc, he]
            simp [hinv q]
          simp only [exportLoop, exportLoopSpec, hy, he]
          rw [ih exported (prev ++ [r]) hnext]
          simp
      | some p =>
          by_cases hf : isFileAt fs p = true
          · have he : effLink fs r = some p := by simp [effLink, hy, hf]
            by_cases hin : p ∈ exported
            · have hin2 : p ∈ prevLinks fs prev := (hinv p).mp hin
              have hnext : ∀ q, q ∈ exported ↔ q ∈ prevLinks fs (prev ++ [r]) := by
                intro q
                rw [prevLinks_snoc, he]
                simp only [Option.toList_some, List.mem_append, List.mem_cons,
                  List.not_mem_nil, or_false]
                constructor
                · intro hq; exact Or.inl ((hinv q).mp hq)
                · rintro (hq | rfl)
                  · exact (hinv q).mpr hq
                  · exact hin
              simp only [exportLoop, exportLoopSpec, hy, he]
              rw [if_neg (by simp [hin]), if_pos hin2,
                ih exported (prev ++ [r]) hnext]
              simp
            · have hin2 : p ∉ prevLinks fs prev := fun hq => hin ((hinv p).mpr hq)
              have hnext : ∀ q, q ∈ p :: exported ↔ q ∈ prevLinks fs (prev ++ [r]) := by
                intro q
                rw [prevLinks_snoc, he]
                simp only [List.mem_cons, Option.toList_some, List.mem_append,
                  List.not_mem_nil, or_false]
                constructor
                · rintro (rfl | hq)
                  · exact Or.inr rfl
                  · exact Or.inl ((hinv q).mp hq)
                · rintro (hq | rfl)
                  · exact Or.inr ((hinv q).mpr hq)
                  · exact Or.inl rfl
              simp only [exportLoop, exportLoopSpec, hy, he]
              rw [if_pos ⟨hf, hin⟩, if_neg hin2,
                ih (p :: exported) (prev ++ [r]) hnext]
              simp [List.append_assoc]
          · have he : effLink fs r = Option.none := by simp [effLink, hy, hf]
            have hnext : ∀ q, q ∈ exported ↔ q ∈ prevLinks fs (prev ++ [r]) := by
              intro q
              rw [prevLinks_snoc, he]
              simp [hinv q]
            simp only [exportLoop, exportLoopSpec, hy, he]
            rw [if_neg (by simp [hf]), ih exported (prev ++ [r]) hnext]
            simp

/-- Claim C6: the export emits each distinct linked descriptor file's
content exactly once, the block following the first script record that
links to it.  The stateful loop of `export_all_data` (threading the
`exported_yy_files` set) produces exactly the output of the stateless
reading of the claim, `exportLoopSpec`, in which a record is followed by
its descriptor's block iff its link points at an existing file and no
earlier record carries the same link. -/
theorem export_dedups_descriptor_blocks (fs : FSNode) (projName : List Char)
    (recs : List GmlRec) :
    exportLoop fs projName recs [] = exportLoopSpec fs projName [] recs :=
  exportLoop_eq_spec_aux fs projName recs [] [] (by simp [prevLinks])

/- ===================================================================
   Part 16.  Claim C9: the export's totality and header. -/

/-- Claim C9, counterexample.  A root path that names a regular file
passes the `os.path.exists` check, whereupon `os.listdir` raises an
uncaught `NotADirectoryError` inside `scan_project`, which propagates
out of `export_all_data`: the export does not return a text blob for
every root path. -/
theorem export_raises_on_file_root :
    exportAll (some (FSNode.file Option.none)) (cs "proj") (cs "p") =
      ExportOutcome.raised := rfl

/-- Claim C9, amended: for every root path that does not exist or names
a directory, the export returns a text whose first entry is the header
and whose second entry is the total script count; the count is zero when
the root is missing or its directory lacks a `.yyp` manifest (the scan's
error value is ignored and the detail list stays empty). -/
theorem export_header_and_count (root : Option FSNode)
    (projName projPathStr : List Char)
    (hdom : root = Option.none ∨ ∃ es, root = some (FSNode.dir es)) :
    ∃ n rest,
      exportAll root projName projPathStr = ExportOutcome.text
        ((cs "// GML and YY Data Export from Project: " ++ projPathStr) ::
         (cs "// Total GML Files Found: " ++ natChars n) :: rest) ∧
      (root = Option.none → n = 0) ∧
      (∀ es, root = some (FSNode.dir es) → (fsNames es).any endsYyp = false →
        n = 0) := by
  rcases hdom with rfl | ⟨es, rfl⟩
  · exact ⟨0, _, rfl, fun _ => rfl, fun es h => by cases h⟩
  · by_cases hm : (fsNames es).any endsYyp = true
    · refine ⟨(scanGmlFiles projName (FSNode.dir es)).length,
        rep '=' 70 :: ([] : List Char) ::
          exportLoop (FSNode.dir es) projName
            (scanGmlFiles projName (FSNode.dir es)) [], ?_, ?_, ?_⟩
      · simp only [exportAll, scanDetails, if_pos hm]
        rfl
      · intro h; cases h
      · intro es2 h2 hno
        injection h2 with h3
        injection h3 with h4
        subst h4
        rw [hm] at hno
        cases hno
    · refine ⟨0, [rep '=' 70, ([] : List Char)], ?_, fun _ => rfl, fun _ _ _ => rfl⟩
      simp only [exportAll, scanDetails, if_neg hm]
      rfl

/-- Witness for the amended C9 at a missing root. -/
theorem export_header_and_count_witness :
    ∃ n rest,
      exportAll Option.none (cs "proj") (cs "p") = ExportOutcome.text
        ((cs "// GML and YY Data Export from Project: " ++ cs "p") ::
         (cs "// Total GML Files Found: " ++ natChars n) :: rest) ∧
      ((Option.none : Option FSNode) = Option.none → n = 0) ∧
      (∀ es, (Option.none : Option FSNode) = some (FSNode.dir es) →
        (fsNames es).any endsYyp = false → n = 0) :=
  export_header_and_count Option.none (cs "proj") (cs "p") (Or.inl rfl)

/- ===================================================================
   Part 17.  Claims C8 and C10: inspector error behaviour. -/

theorem isFileAt_readFileAt {fs : FSNode} {p : List (List Char)}
    (h : isFileAt fs p = true) : ∃ c, readFileAt fs p = some c := by
  cases hl : lookupPath fs p with
  | none => simp [isFileAt, hl] at h
  | some nd =>
      cases nd with
      | file c => exact ⟨c, by simp only [readFileAt, hl]⟩
      | dir es => simp [isFileAt, hl] at h

/-- Claim C8: the room inspector fails whenever the descriptor file at
`rooms/<name>/<name>.yy` is absent, whereas the sprite inspector fails
exactly when the sprite folder is absent, and reports a null descriptor
path when the folder exists without a descriptor file. -/
theorem room_requires_descriptor_sprite_does_not (fs : FSNode)
    (name : List Char) :
    (isFileAt fs (roomYyPath name) = false →
      (getRoomInfo fs name).isErr = true) ∧
    ((getSpriteInfo fs name).isErr = true ↔
      isDirAt fs (spriteDir name) = false) ∧
    (isDirAt fs (spriteDir name) = true →
      isFileAt fs (spriteDir name ++ [name ++ cs ".yy"]) = false →
      ∃ frames, getSpriteInfo fs name = SpriteResult.ok Option.none frames) := by
  refine ⟨?_, ?_, ?_⟩
  · intro h
    simp [getRoomInfo, getAssetInfo, h, InfoResult.isErr]
  · cases hd : isDirAt fs (spriteDir name) <;>
      simp [getSpriteInfo, hd, SpriteResult.isErr]
  · intro h1 h2
    refine ⟨(sortLe lexLe (listNamesAt fs (spriteDir name))).filter
      (fun nm => (cs ".png").isSuffixOf (lowerStr nm)), ?_⟩
    simp [getSpriteInfo, h1, h2]

/-- Witness for C8 at the concrete tree `fsWit`: the room descriptor is
missing (so room inspection errs), the sprite folder `spr1` exists with
no descriptor (so sprite inspection succeeds with a null path). -/
theorem room_requires_descriptor_sprite_does_not_witness :
    (getRoomInfo fsWit (cs "rm_a")).isErr = true ∧
    ∃ frames, getSpriteInfo fsWit (cs "spr1") = SpriteResult.ok Option.none frames :=
  ⟨(room_requires_descriptor_sprite_does_not fsWit (cs "rm_a")).1 (by decide),
   (room_requires_descriptor_sprite_does_not fsWit (cs "spr1")).2.2
     (by decide) (by decide)⟩

theorem getAssetInfo_ok_iff (fs : FSNode) (p : List (List Char))
    (render : PyVal → Option (List (List Char))) (m1 m2 m3 : List Char)
    (d : PyVal) (ls : List (List Char)) :
    getAssetInfo fs p render m1 m2 m3 = InfoResult.ok d ls ↔
      ∃ content, readFileAt fs p = some (some content) ∧
        jsonParse (repair content) = some d ∧ render d = some ls := by
  constructor
  · intro h
    by_cases hf : isFileAt fs p = true
    · obtain ⟨c, hc⟩ := isFileAt_readFileAt hf
      cases c with
      | none => simp [getAssetInfo, hf, hc] at h
      | some content =>
          cases hj : jsonParse (repair content) with
          | none => simp [getAssetInfo, hf, hc, hj] at h
          | some d2 =>
              cases hr : render d2 with
              | none => simp [getAssetInfo, hf, hc, hj, hr] at h
              | some ls2 =>
                  simp only [getAssetInfo, if_pos hf, hc, hj, hr] at h
                  injection h with h1 h2
                  subst h1; subst h2
                  exact ⟨content, hc, hj, hr⟩
    · simp [getAssetInfo, hf] at h
  · rintro ⟨content, hc, hj, hr⟩
    have hf : isFileAt fs p = true := by
      cases hl : lookupPath fs p with
      | none => simp [readFileAt, hl] at hc
      | some nd =>
          cases nd with
          | file c => simp only [isFileAt, hl]
          | dir es => simp [readFileAt, hl] at hc
    simp only [getAssetInfo, if_pos hf, hc, hj, hr]

theorem getAssetInfo_err_iff (fs : FSNode) (p : List (List Char))
    (render : PyVal → Option (List (List Char))) (m1 m2 m3 : List Char) :
    (getAssetInfo fs p render m1 m2 m3).isErr = true ↔
      (isFileAt fs p = false ∨ readFileAt fs p = some Option.none ∨
       (∃ content, readFileAt fs p = some (some content) ∧
          jsonParse (repair content) = Option.none) ∨
       (∃ content d2, readFileAt fs p = some (some content) ∧
          jsonParse (repair content) = some d2 ∧ render d2 = Option.none)) := by
  by_cases hf : isFileAt fs p = true
  · obtain ⟨c, hc⟩ := isFileAt_readFileAt hf
    cases c with
    | none =>
        have hval : getAssetInfo fs p render m1 m2 m3 = InfoResult.err m3 := by
          simp only [getAssetInfo, if_pos hf, hc]
        rw [hval]
        exact iff_of_true rfl (Or.inr (Or.inl hc))
    | some content =>
        cases hj : jsonParse (repair content) with
        | none =>
            have hval : getAssetInfo fs p render m1 m2 m3 = InfoResult.err m2 := by
              simp only [getAssetInfo, if_pos hf, hc, hj]
            rw [hval]
            exact iff_of_true rfl (Or.inr (Or.inr (Or.inl ⟨content, hc, hj⟩)))
        | some d2 =>
            cases hr : render d2 with
            | none =>
                have hval : getAssetInfo fs p render m1 m2 m3 = InfoResult.err m3 := by
                  simp only [getAssetInfo, if_pos hf, hc, hj, hr]
                rw [hval]
                exact iff_of_true rfl
                  (Or.inr (Or.inr (Or.inr ⟨content, d2, hc, hj, hr⟩)))
            | some ls2 =>
                have hval : getAssetInfo fs p render m1 m2 m3 =
                    InfoResult.ok d2 ls2 := by
                  simp only [getAssetInfo, if_pos hf, hc, hj, hr]
                rw [hval]
                refine iff_of_false (by simp [InfoResult.isErr]) ?_
                rintro (h | h | ⟨content2, hc2, hj2⟩ | ⟨content2, d3, hc2, hj2, hr2⟩)
                · rw [hf] at h; cases h
                · rw [hc] at h; injection h with h2; cases h2
                · rw [hc] at hc2
                  injection hc2 with h2
                  injection h2 with h3
                  subst h3
                  rw [hj] at hj2; cases hj2
                · rw [hc] at hc2
                  injection hc2 with h2
                  injection h2 with h3
                  subst h3
                  rw [hj] at hj2
                  injection hj2 with h4
                  subst h4
                  rw [hr] at hr2; cases hr2
  · have hf0 : isFileAt fs p = false := by
      cases hfb : isFileAt fs p
      · rfl
      · exact absurd hfb hf
    have hval : getAssetInfo fs p render m1 m2 m3 = InfoResult.err m1 := by
      simp only [getAssetInfo, if_neg hf]
    rw [hval]
    exact iff_of_true rfl (Or.inl hf0)

/-- Claim C10: the room and object inspections are atomic and err
exactly when the load-parse-render pipeline fails: the result either
carries parsed data with its rendering (and those are precisely the
pipeline's outputs), or the error value, which happens iff the
descriptor file is missing, unreadable, or unparsable after repair, or
the renderer itself raises. -/
theorem inspection_atomic (fs : FSNode) (name : List Char) :
    (∀ d ls, getRoomInfo fs name = InfoResult.ok d ls ↔
      ∃ content, readFileAt fs (roomYyPath name) = some (some content) ∧
        jsonParse (repair content) = some d ∧ formatRoomLines d = some ls) ∧
    ((getRoomInfo fs name).isErr = true ↔
      (isFileAt fs (roomYyPath name) = false ∨
       readFileAt fs (roomYyPath name) = some Option.none ∨
       (∃ content, readFileAt fs (roomYyPath name) = some (some content) ∧
          jsonParse (repair content) = Option.none) ∨
       (∃ content d2, readFileAt fs (roomYyPath name) = some (some content) ∧
          jsonParse (repair content) = some d2 ∧ formatRoomLines d2 = Option.none))) ∧
    (∀ d ls, getObjectInfo fs name = InfoResult.ok d ls ↔
      ∃ content, readFileAt fs (objectYyPath name) = some (some content) ∧
        jsonParse (repair content) = some d ∧ formatObjectLines d = some ls) ∧
    ((getObjectInfo fs name).isErr = true ↔
      (isFileAt fs (objectYyPath name) = false ∨
       readFileAt fs (objectYyPath name) = some Option.none ∨
       (∃ content, readFileAt fs (objectYyPath name) = some (some content) ∧
          jsonParse (repair content) = Option.none) ∨
       (∃ content d2, readFileAt fs (objectYyPath name) = some (some content) ∧
          jsonParse (repair content) = some d2 ∧ formatObjectLines d2 = Option.none))) :=
  ⟨fun d ls => getAssetInfo_ok_iff fs (roomYyPath name) formatRoomLines _ _ _ d ls,
   getAssetInfo_err_iff fs (roomYyPath name) formatRoomLines _ _ _,
   fun d ls => getAssetInfo_ok_iff fs (objectYyPath name) formatObjectLines _ _ _ d ls,
   getAssetInfo_err_iff fs (objectYyPath name) formatObjectLines _ _ _⟩

/- ===================================================================
   Part 18.  Shape of the object rendering, and claim C4. -/

theorem refNameLine_shape {tag : List Char} {v : PyVal} {dflt l : List Char}
    (h : refNameLine tag v dflt = some l) : ∃ s, l = tag ++ s := by
  unfold refNameLine at h
  by_cases ht : pyTruthy v = true
  · rw [if_pos ht] at h
    cases v with
    | dict ys =>
        exact ⟨_, (Option.some.inj h).symm⟩
    | none => cases h
    | bool b => cases h
    | int n => cases h
    | str s => cases h
    | list xs => cases h
  · rw [if_neg ht] at h
    exact ⟨dflt, (Option.some.inj h).symm⟩

theorem formatObjectLines_eq {xs : PyDict} {L : List (List Char)}
    (h : formatObjectLines (PyVal.dict xs) = some L) :
    ∃ nLen l1 l2 l3 nEv nPr varLines,
      pyLen (pdGetD xs (cs "name") (PyVal.str (cs "Unknown Object"))) = some nLen ∧
      refNameLine (cs "  Sprite: ") (pdGetD xs (cs "spriteId") PyVal.none)
        (cs "None") = some l1 ∧
      refNameLine (cs "  Mask: ") (pdGetD xs (cs "spriteMaskId") PyVal.none)
        (cs "Same as Sprite") = some l2 ∧
      refNameLine (cs "  Parent: ") (pdGetD xs (cs "parentObjectId") PyVal.none)
        (cs "None") = some l3 ∧
      pyLen (pdGetD xs (cs "eventList") (PyVal.list PyList.nil)) = some nEv ∧
      pyLen (pdGetD xs (cs "properties") (PyVal.list PyList.nil)) = some nPr ∧
      ((pyTruthy (pdGetD xs (cs "properties") (PyVal.list PyList.nil)) = true ∧
        ∃ items, asIter (pdGetD xs (cs "properties") (PyVal.list PyList.nil)) = some items ∧
          objVarLines items = some varLines) ∨
       (pyTruthy (pdGetD xs (cs "properties") (PyVal.list PyList.nil)) = false ∧
        varLines = [cs "  (None)"])) ∧
      L = (cs "Object: " ++ pyStr (pdGetD xs (cs "name") (PyVal.str (cs "Unknown Object")))) ::
          List.replicate (nLen + 8) '=' ::
          [] :: cs "[Properties]" :: l1 :: l2 :: l3 ::
          fieldLine xs (cs "Visible") (cs "visible") (cs "True") ::
          fieldLine xs (cs "Solid") (cs "solid") (cs "False") ::
          fieldLine xs (cs "Persistent") (cs "persistent") (cs "False") ::
          [] :: (cs "[Events (" ++ natChars nEv ++ cs ")]") ::
          (physBlock xs ++
           ([] :: (cs "[Object Variables (" ++ natChars nPr ++ cs ")]") :: varLines)) := by
  simp only [formatObjectLines, Option.bind_eq_bind] at h
  cases h0 : pyLen (pdGetD xs (cs "name") (PyVal.str (cs "Unknown Object"))) with
  | none => simp [h0] at h
  | some nLen =>
  simp only [h0, Option.some_bind] at h
  cases h1 : refNameLine (cs "  Sprite: ") (pdGetD xs (cs "spriteId") PyVal.none)
      (cs "None") with
  | none => simp [h1] at h
  | some l1 =>
  simp only [h1, Option.some_bind] at h
  cases h2 : refNameLine (cs "  Mask: ") (pdGetD xs (cs "spriteMaskId") PyVal.none)
      (cs "Same as Sprite") with
  | none => simp [h2] at h
  | some l2 =>
  simp only [h2, Option.some_bind] at h
  cases h3 : refNameLine (cs "  Parent: ") (pdGetD xs (cs "parentObjectId") PyVal.none)
      (cs "None") with
  | none => simp [h3] at h
  | some l3 =>
  simp only [h3, Option.some_bind] at h
  cases h4 : pyLen (pdGetD xs (cs "eventList") (PyVal.list PyList.nil)) with
  | none => simp [h4] at h
  | some nEv =>
  simp only [h4, Option.some_bind] at h
  cases h5 : pyLen (pdGetD xs (cs "properties") (PyVal.list PyList.nil)) with
  | none => simp [h5] at h
  | some nPr =>
  simp only [h5, Option.some_bind] at h
  by_cases ht : pyTruthy (pdGetD xs (cs "properties") (PyVal.list PyList.nil)) = true
  · simp only [if_pos ht] at h
    cases h6 : asIter (pdGetD xs (cs "properties") (PyVal.list PyList.nil)) with
    | none => simp [h6] at h
    | some items =>
    simp only [h6, Option.some_bind] at h
    cases h7 : objVarLines items with
    | none => simp [h7] at h
    | some varLines =>
    simp only [h7, Option.some_bind] at h
    exact ⟨nLen, l1, l2, l3, nEv, nPr, varLines, rfl, rfl, rfl, rfl, rfl, rfl,
      Or.inl ⟨ht, items, rfl, h7⟩, (Option.some.inj h).symm⟩
  · simp only [if_neg ht] at h
    have ht0 : pyTruthy (pdGetD xs (cs "properties") (PyVal.list PyList.nil)) = false := by
      cases htb : pyTruthy (pdGetD xs (cs "properties") (PyVal.list PyList.nil))
      · rfl
      · exact absurd htb ht
    exact ⟨nLen, l1, l2, l3, nEv, nPr, [cs "  (None)"], rfl, rfl, rfl, rfl, rfl, rfl,
      Or.inr ⟨ht0, rfl⟩, (Option.some.inj h).symm⟩

theorem afterFirst_cons_ne {hdr l : List Char} {L : List (List Char)}
    (h : l ≠ hdr) : afterFirst hdr (l :: L) = afterFirst hdr L := by
  simp [afterFirst, h]

theorem afterFirst_cons_self (hdr : List Char) (L : List (List Char)) :
    afterFirst hdr (hdr :: L) = L := by
  simp [afterFirst]

theorem takeWhile_nonempty_append (xs ys : List (List Char))
    (h : ∀ x ∈ xs, x ≠ []) :
    (xs ++ [] :: ys).takeWhile (fun l => !l.isEmpty) = xs := by
  induction xs with
  | nil => simp [List.takeWhile_cons]
  | cons x xs ih =>
      rw [List.cons_append, List.takeWhile_cons]
      have hx : x ≠ [] := h x (List.mem_cons_self x xs)
      have hx2 : x.isEmpty = false := by
        cases x with
        | nil => exact absurd rfl hx
        | cons a r => rfl
      rw [hx2]
      simp only [Bool.not_false, if_true]
      rw [ih fun y hy => h y (List.mem_cons_of_mem x hy)]

theorem append_ne_of_heads {c d : Char} (h : c ≠ d) (lr s hr : List Char) :
    (c :: lr) ++ s ≠ d :: hr := by
  intro he
  rw [List.cons_append] at he
  injection he with h1 _
  exact h h1

theorem append_ne_of_second {c d e : Char} (h : d ≠ e) (lr s hr : List Char) :
    (c :: d :: lr) ++ s ≠ c :: e :: hr := by
  intro he
  rw [List.cons_append] at he
  injection he with _ h2
  injection h2 with h3 _
  exact h h3

theorem fieldLine_ne_physHdr (xs : PyDict) (label key d0 : List Char) :
    fieldLine xs label key d0 ≠ cs "[Physics Properties]" := by
  intro h
  rw [show cs "[Physics Properties]" = '[' :: cs "Physics Properties]" from by decide]
    at h
  simp only [fieldLine] at h
  injection h with h1 _
  exact absurd h1 (by decide)

theorem fieldLine_ne_nil (xs : PyDict) (label key d0 : List Char) :
    fieldLine xs label key d0 ≠ [] := by
  intro h
  simp only [fieldLine] at h
  cases h

/-- Claim C4, amended: for every object record whose rendering succeeds,
when the physics flag is truthy the `[Physics Properties]` section
consists of the `Enabled: True` line followed by exactly ten named
physics fields (Sensor, Shape, Density, Restitution, Group, Linear
Damping, Angular Damping, Friction, Awake, Kinematic), each falling back
to its documented default when absent; when the flag is falsy or absent
the section is the single `Enabled: False` line. -/
theorem physics_block_contents (v : PyVal) (xs : PyDict) (L : List (List Char))
    (hv : v = PyVal.dict xs) (h : formatObjectLines v = some L) :
    sectionAt (cs "[Physics Properties]") L =
      if pyTruthy (pdGetD xs (cs "physicsObject") (PyVal.bool false)) then
        [cs "  Enabled: True",
         fieldLine xs (cs "Sensor") (cs "physicsSensor") (cs "False"),
         fieldLine xs (cs "Shape") (cs "physicsShape") (cs "1"),
         fieldLine xs (cs "Density") (cs "physicsDensity") (cs "0.5"),
         fieldLine xs (cs "Restitution") (cs "physicsRestitution") (cs "0.1"),
         fieldLine xs (cs "Group") (cs "physicsGroup") (cs "1"),
         fieldLine xs (cs "Linear Damping") (cs "physicsLinearDamping") (cs "0.1"),
         fieldLine xs (cs "Angular Damping") (cs "physicsAngularDamping") (cs "0.1"),
         fieldLine xs (cs "Friction") (cs "physicsFriction") (cs "0.2"),
         fieldLine xs (cs "Awake") (cs "physicsStartAwake") (cs "True"),
         fieldLine xs (cs "Kinematic") (cs "physicsKinematic") (cs "False")]
      else [cs "  Enabled: False"] := by
  subst hv
  obtain ⟨nLen, l1, l2, l3, nEv, nPr, varLines, _, hl1, hl2, hl3, _, _, _, hL⟩ :=
    formatObjectLines_eq h
  subst hL
  obtain ⟨s1, rfl⟩ := refNameLine_shape hl1
  obtain ⟨s2, rfl⟩ := refNameLine_shape hl2
  obtain ⟨s3, rfl⟩ := refNameLine_shape hl3
  have hhdr : cs "[Physics Properties]" = '[' :: cs "Physics Properties]" := by decide
  have ne0 : cs "Object: " ++
      pyStr (pdGetD xs (cs "name") (PyVal.str (cs "Unknown Object"))) ≠
      cs "[Physics Properties]" := by
    rw [show cs "Object: " = 'O' :: cs "bject: " from by decide, hhdr]
    exact append_ne_of_heads (by decide) _ _ _
  have ne1 : List.replicate (nLen + 8) '=' ≠ cs "[Physics Properties]" := by
    rw [show nLen + 8 = (nLen + 7) + 1 from rfl, List.replicate_succ, hhdr]
    intro he
    injection he with h1 _
    exact absurd h1 (by decide)
  have ne2 : ([] : List Char) ≠ cs "[Physics Properties]" := by decide
  have ne3 : cs "[Properties]" ≠ cs "[Physics Properties]" := by decide
  have ne4 : cs "  Sprite: " ++ s1 ≠ cs "[Physics Properties]" := by
    rw [show cs "  Sprite: " = ' ' :: cs " Sprite: " from by decide, hhdr]
    exact append_ne_of_heads (by decide) _ _ _
  have ne5 : cs "  Mask: " ++ s2 ≠ cs "[Physics Properties]" := by
    rw [show cs "  Mask: " = ' ' :: cs " Mask: " from by decide, hhdr]
    exact append_ne_of_heads (by decide) _ _ _
  have ne6 : cs "  Parent: " ++ s3 ≠ cs "[Physics Properties]" := by
    rw [show cs "  Parent: " = ' ' :: cs " Parent: " from by decide, hhdr]
    exact append_ne_of_heads (by decide) _ _ _
  have ne11 : cs "[Events (" ++ natChars nEv ++ cs ")]" ≠
      cs "[Physics Properties]" := by
    rw [show cs "[Events (" = '[' :: 'E' :: cs "vents (" from by decide,
      show cs "[Physics Properties]" = '[' :: 'P' :: cs "hysics Properties]"
        from by decide]
    exact append_ne_of_second (by decide) _ _ _
  unfold sectionAt
  rw [afterFirst_cons_ne ne0, afterFirst_cons_ne ne1, afterFirst_cons_ne ne2,
    afterFirst_cons_ne ne3, afterFirst_cons_ne ne4, afterFirst_cons_ne ne5,
    afterFirst_cons_ne ne6,
    afterFirst_cons_ne (fieldLine_ne_physHdr xs (cs "Visible") (cs "visible") (cs "True")),
    afterFirst_cons_ne (fieldLine_ne_physHdr xs (cs "Solid") (cs "solid") (cs "False")),
    afterFirst_cons_ne (fieldLine_ne_physHdr xs (cs "Persistent") (cs "persistent") (cs "False")),
    afterFirst_cons_ne ne2, afterFirst_cons_ne ne11]
  by_cases hphys : pyTruthy (pdGetD xs (cs "physicsObject") (PyVal.bool false)) = true
  · rw [if_pos hphys]
    simp only [physBlock, if_pos hphys]
    rw [List.cons_append, List.cons_append, afterFirst_cons_ne ne2,
      afterFirst_cons_self]
    have hwrap : ∀ x ∈
        [cs "  Enabled: True",
         fieldLine xs (cs "Sensor") (cs "physicsSensor") (cs "False"),
         fieldLine xs (cs "Shape") (cs "physicsShape") (cs "1"),
         fieldLine xs (cs "Density") (cs "physicsDensity") (cs "0.5"),
         fieldLine xs (cs "Restitution") (cs "physicsRestitution") (cs "0.1"),
         fieldLine xs (cs "Group") (cs "physicsGroup") (cs "1"),
         fieldLine xs (cs "Linear Damping") (cs "physicsLinearDamping") (cs "0.1"),
         fieldLine xs (cs "Angular Damping") (cs "physicsAngularDamping") (cs "0.1"),
         fieldLine xs (cs "Friction") (cs "physicsFriction") (cs "0.2"),
         fieldLine xs (cs "Awake") (cs "physicsStartAwake") (cs "True"),
         fieldLine xs (cs "Kinematic") (cs "physicsKinematic") (cs "False")],
        x ≠ [] := by
      intro x hx
      simp only [List.mem_cons, List.not_mem_nil, or_false] at hx
      rcases hx with rfl | rfl | rfl | rfl | rfl | rfl | rfl | rfl | rfl | rfl | rfl
      · decide
      all_goals exact fieldLine_ne_nil _ _ _ _
    simpa using takeWhile_nonempty_append _ _ hwrap
  · rw [if_neg hphys]
    simp only [physBlock, if_neg hphys]
    rw [List.cons_append, List.cons_append, afterFirst_cons_ne ne2,
      afterFirst_cons_self]
    have hwrap : ∀ x ∈ [cs "  Enabled: False"], x ≠ [] := by
      intro x hx
      simp only [List.mem_cons, List.not_mem_nil, or_false] at hx
      subst hx
      decide
    simpa using takeWhile_nonempty_append _ _ hwrap

/-- Witness for the amended C4 at the record `{"physicsObject": true}`. -/
theorem physics_block_contents_witness :
    sectionAt (cs "[Physics Properties]")
        ((formatObjectLines objPhysOnly).getD []) =
      if pyTruthy (pdGetD (PyDict.cons (cs "physicsObject") (PyVal.bool true) PyDict.nil)
          (cs "physicsObject") (PyVal.bool false)) then
        [cs "  Enabled: True",
         fieldLine (PyDict.cons (cs "physicsObject") (PyVal.bool true) PyDict.nil)
           (cs "Sensor") (cs "physicsSensor") (cs "False"),
         fieldLine (PyDict.cons (cs "physicsObject") (PyVal.bool true) PyDict.nil)
           (cs "Shape") (cs "physicsShape") (cs "1"),
         fieldLine (PyDict.cons (cs "physicsObject") (PyVal.bool true) PyDict.nil)
           (cs "Density") (cs "physicsDensity") (cs "0.5"),
         fieldLine (PyDict.cons (cs "physicsObject") (PyVal.bool true) PyDict.nil)
           (cs "Restitution") (cs "physicsRestitution") (cs "0.1"),
         fieldLine (PyDict.cons (cs "physicsObject") (PyVal.bool true) PyDict.nil)
           (cs "Group") (cs "physicsGroup") (cs "1"),
         fieldLine (PyDict.cons (cs "physicsObject") (PyVal.bool true) PyDict.nil)
           (cs "Linear Damping") (cs "physicsLinearDamping") (cs "0.1"),
         fieldLine (PyDict.cons (cs "physicsObject") (PyVal.bool true) PyDict.nil)
           (cs "Angular Damping") (cs "physicsAngularDamping") (cs "0.1"),
         fieldLine (PyDict.cons (cs "physicsObject") (PyVal.bool true) PyDict.nil)
           (cs "Friction") (cs "physicsFriction") (cs "0.2"),
         fieldLine (PyDict.cons (cs "physicsObject") (PyVal.bool true) PyDict.nil)
           (cs "Awake") (cs "physicsStartAwake") (cs "True"),
         fieldLine (PyDict.cons (cs "physicsObject") (PyVal.bool true) PyDict.nil)
           (cs "Kinematic") (cs "physicsKinematic") (cs "False")]
      else [cs "  Enabled: False"] :=
  physics_block_contents objPhysOnly
    (PyDict.cons (cs "physicsObject") (PyVal.bool true) PyDict.nil)
    ((formatObjectLines objPhysOnly).getD []) rfl (by rfl)

/-- Claim C4, counterexample.  At `{"physicsObject": true}` the
`[Physics Properties]` section holds the `Enabled` line plus ten named
fields (11 entries), not the claimed nine (10 entries). -/
theorem physics_block_not_nine :
    (sectionAt (cs "[Physics Properties]")
      ((formatObjectLines objPhysOnly).getD [])).length = 11 ∧
    decide ((sectionAt (cs "[Physics Properties]")
      ((formatObjectLines objPhysOnly).getD [])).length = 1 + 9) = false := by
  exact ⟨by decide, by decide⟩

/- ===================================================================
   Part 19.  Connector structure of the room rendering (claims C3, C7). -/

theorem lineConn_blank (l : List Char) :
    lineConn (blankPfx ++ l) = (lineConn l).map (fun p => (p.1 + 1, p.2)) := rfl

theorem lineConn_cont (l : List Char) :
    lineConn (contPfx ++ l) = (lineConn l).map (fun p => (p.1 + 1, p.2)) := rfl

theorem lineConn_mid (t : List Char) : lineConn (glyphMid ++ t) = some (0, false) := rfl

theorem lineConn_end (t : List Char) : lineConn (glyphEnd ++ t) = some (0, true) := rfl

theorem lineConn_lpc (isLast : Bool) (l : List Char) :
    lineConn ((if isLast then blankPfx else contPfx) ++ l) =
      (lineConn l).map (fun p => (p.1 + 1, p.2)) := by
  cases isLast
  · exact lineConn_cont l
  · exact lineConn_blank l

theorem lineConn_layer_base (isLast : Bool) (t : List Char) :
    lineConn ((if isLast then blankPfx else contPfx) ++
      ((if isLast then glyphEnd else glyphMid) ++ t)) = some (1, isLast) := by
  cases isLast
  · rw [if_neg (by decide : ¬ (false = true)), if_neg (by decide : ¬ (false = true)),
      lineConn_cont, lineConn_mid]
    rfl
  · rw [if_pos (by decide : (true = true)), if_pos (by decide : (true = true)),
      lineConn_blank, lineConn_end]
    rfl

theorem lastFlags_eq : ∀ (l : List α), l ≠ [] →
    lastFlags l = List.replicate (l.length - 1) false ++ [true] := by
  intro l
  induction l with
  | nil => intro h; exact absurd rfl h
  | cons x xs ih =>
      intro _
      cases xs with
      | nil => rfl
      | cons y ys =>
          show false :: lastFlags (y :: ys) = _
          rw [ih (by simp)]
          simp [List.replicate_succ, List.length_cons]

theorem bumpCount_ne_nil (k : List Char) (acc : List (List Char × Nat)) :
    bumpCount k acc ≠ [] := by
  cases acc with
  | nil => simp [bumpCount]
  | cons p rest =>
      obtain ⟨k2, c⟩ := p
      simp only [bumpCount]
      by_cases hk : k2 = k
      · simp [hk]
      · simp [hk]

theorem countNamesAux_nil {acc : List (List Char × Nat)} :
    ∀ {l : List (List Char)}, countNamesAux acc l = [] → acc = [] ∧ l = [] := by
  intro l
  induction l generalizing acc with
  | nil => intro h; exact ⟨h, rfl⟩
  | cons k rest ih =>
      intro h
      obtain ⟨h1, _⟩ := ih h
      exact absurd h1 (bumpCount_ne_nil k acc)

theorem countNames_ne_nil {l : List (List Char)} (h : l ≠ []) :
    countNames l ≠ [] := by
  intro he
  exact h (countNamesAux_nil he).2

theorem insertLe_length (le : α → α → Bool) (x : α) :
    ∀ l : List α, (insertLe le x l).length = l.length + 1 := by
  intro l
  induction l with
  | nil => rfl
  | cons y ys ih =>
      simp only [insertLe]
      by_cases h : le x y = true
      · simp [h]
      · simp [h, ih]

theorem sortLe_length (le : α → α → Bool) :
    ∀ l : List α, (sortLe le l).length = l.length := by
  intro l
  induction l with
  | nil => rfl
  | cons y ys ih => simp [sortLe, insertLe_length, ih]

theorem sortLe_ne_nil (le : α → α → Bool) {l : List α} (h : l ≠ []) :
    sortLe le l ≠ [] := by
  intro he
  apply h
  have := sortLe_length le l
  rw [he] at this
  exact List.length_eq_zero.mp this.symm

theorem strToPyList_ne_nil {s : List Char} (h : s ≠ []) :
    strToPyList s ≠ PyList.nil := by
  cases s with
  | nil => exact absurd rfl h
  | cons c r => simp [strToPyList]

theorem asIter_truthy_ne_nil {v : PyVal} {items : PyList}
    (ht : pyTruthy v = true) (h : asIter v = some items) : items ≠ PyList.nil := by
  cases v with
  | none => cases h
  | bool b => cases h
  | int n => cases h
  | str s =>
      have hs : s ≠ [] := by simpa [pyTruthy] using ht
      rw [asIter] at h
      exact (Option.some.inj h) ▸ strToPyList_ne_nil hs
  | list xs =>
      cases xs with
      | nil => simp [pyTruthy, PyList.isNil] at ht
      | cons a r =>
          rw [asIter] at h
          rw [← Option.some.inj h]
          simp
  | dict xs =>
      cases xs with
      | nil => simp [pyTruthy, PyDict.length] at ht
      | cons k a r =>
          rw [asIter] at h
          rw [← Option.some.inj h]
          simp [PyDict.keys]

theorem instNames_length : ∀ (items : PyList) (names : List (List Char)),
    instNames items = some names → names.length = items.length
  | PyList.nil, names, h => by rw [← Option.some.inj h]; rfl
  | PyList.cons v rest, names, h => by
      simp only [instNames, Option.bind_eq_bind] at h
      cases h1 : instName1 v with
      | none => simp [h1] at h
      | some nm =>
          simp only [h1, Option.some_bind] at h
          cases h2 : instNames rest with
          | none => simp [h2] at h
          | some ns =>
              simp only [h2, Option.some_bind] at h
              rw [← Option.some.inj h]
              simp [PyList.length, instNames_length rest ns h2]

theorem objCountLines_conn {opc : List Char}
    (hopc : ∀ t, lineConn (opc ++ t) = (lineConn t).map (fun p => (p.1 + 3, p.2))) :
    ∀ items : List (List Char × Nat),
    (objCountLines opc items).map lineConn =
      (lastFlags items).map (fun b => some (3, b)) := by
  intro items
  induction items with
  | nil => rfl
  | cons p rest ih =>
      obtain ⟨k, c⟩ := p
      have hline : lineConn (opc ++ (if rest = [] then glyphEnd else glyphMid) ++
          ' ' :: k ++ (if 1 < c then cs " (x" ++ natChars c ++ [')'] else [])) =
          some (3, rest.isEmpty) := by
        simp only [List.append_assoc, List.cons_append]
        rw [hopc]
        by_cases hr : rest = []
        · rw [if_pos hr, lineConn_end, hr]; rfl
        · rw [if_neg hr, lineConn_mid]
          have h2 : rest.isEmpty = false := by
            cases rest with
            | nil => exact absurd rfl hr
            | cons a r => rfl
          rw [h2]; rfl
      show lineConn (opc ++ (if rest = [] then glyphEnd else glyphMid) ++
          ' ' :: k ++ (if 1 < c then cs " (x" ++ natChars c ++ [')'] else [])) ::
        (objCountLines opc rest).map lineConn =
        some (3, rest.isEmpty) :: (lastFlags rest).map (fun b => some (3, b))
      rw [hline, ih]

theorem lpc_step3 (isLast : Bool) :
    ∀ t, lineConn (((if isLast then blankPfx else contPfx) ++ blankPfx ++ blankPfx) ++ t) =
      (lineConn t).map (fun p => (p.1 + 3, p.2)) := by
  intro t
  simp only [List.append_assoc]
  rw [lineConn_lpc, lineConn_blank, lineConn_blank]
  cases lineConn t with
  | none => rfl
  | some p => rfl

theorem instChunk_conn {isLast : Bool} {instV : PyVal} {ls : List (List Char)}
    (h : instChunk (if isLast then blankPfx else contPfx) instV = some ls) :
    ls = [] ∨ ∃ (instLine : List Char) (objLs : List (List Char)) (m : Nat),
      ls = instLine :: objLs ∧ lineConn instLine = some (2, true) ∧
      objLs.map lineConn =
        ((List.replicate m false ++ [true]).map (fun b => some (3, b))) := by
  rw [instChunk] at h
  by_cases ht : pyTruthy instV = true
  · rw [if_pos ht] at h
    right
    simp only [Option.bind_eq_bind] at h
    cases h1 : asIter instV with
    | none => simp [h1] at h
    | some items =>
    simp only [h1, Option.some_bind] at h
    cases h2 : instNames items with
    | none => simp [h2] at h
    | some names =>
    simp only [h2, Option.some_bind] at h
    cases h3 : pyLen instV with
    | none => simp [h3] at h
    | some cnt =>
    simp only [h3, Option.some_bind] at h
    have hls := (Option.some.inj h).symm
    have hsort : sortLe (fun a b => lexLe a.1 b.1) (countNames names) ≠ [] := by
      apply sortLe_ne_nil
      apply countNames_ne_nil
      intro hn
      have : names.length = items.length := instNames_length items names h2
      rw [hn] at this
      have hinil := asIter_truthy_ne_nil ht h1
      cases items with
      | nil => exact hinil rfl
      | cons a r => simp [PyList.length] at this
    refine ⟨_, _, (sortLe (fun a b => lexLe a.1 b.1) (countNames names)).length - 1,
      hls, ?_, ?_⟩
    · simp only [List.append_assoc, List.cons_append]
      rw [lineConn_lpc, lineConn_blank, lineConn_end]
      rfl
    · rw [objCountLines_conn (lpc_step3 isLast), lastFlags_eq _ hsort]
  · rw [if_neg ht] at h
    exact Or.inl (Option.some.inj h).symm

/- ===================================================================
   Part 20.  The sibling-group splitter: equations and combinators. -/

theorem blocksGo_nil (d : Nat) (cur : List Bool) : blocksGo d cur [] = [cur] := rfl

theorem blocksGo_cons (d : Nat) (cur : List Bool) (k : Nat) (g : Bool)
    (l : List (Nat × Bool)) :
    blocksGo d cur ((k, g) :: l) =
      if k < d then cur :: blocksGo d [] l
      else if k = d then blocksGo d (cur ++ [g]) l
      else blocksGo d cur l := rfl

theorem dFlags_cons_eq (d : Nat) (g : Bool) (l : List (Nat × Bool)) :
    dFlags d ((d, g) :: l) = g :: dFlags d l := by
  rw [dFlags, if_pos rfl]

theorem dFlags_cons_ne {d k : Nat} (g : Bool) (l : List (Nat × Bool))
    (h : k ≠ d) : dFlags d ((k, g) :: l) = dFlags d l := by
  rw [dFlags, if_neg h]

theorem dFlags_append (d : Nat) :
    ∀ l1 l2 : List (Nat × Bool), dFlags d (l1 ++ l2) = dFlags d l1 ++ dFlags d l2 := by
  intro l1 l2
  induction l1 with
  | nil => rfl
  | cons p l1 ih =>
      obtain ⟨k, g⟩ := p
      rw [List.cons_append]
      by_cases hk : k = d
      · subst hk
        rw [dFlags_cons_eq, dFlags_cons_eq, ih, List.cons_append]
      · rw [dFlags_cons_ne g _ hk, dFlags_cons_ne g _ hk, ih]

theorem dFlags_of_ne {d : Nat} :
    ∀ {l : List (Nat × Bool)}, (∀ p ∈ l, p.1 ≠ d) → dFlags d l = [] := by
  intro l
  induction l with
  | nil => intro _; rfl
  | cons p l ih =>
      intro h
      obtain ⟨k, g⟩ := p
      rw [dFlags_cons_ne g _ (h (k, g) (List.mem_cons_self _ _)),
        ih fun q hq => h q (List.mem_cons_of_mem _ hq)]

theorem dFlags_map_self (d : Nat) :
    ∀ P : List Bool, dFlags d (P.map (fun b => (d, b))) = P := by
  intro P
  induction P with
  | nil => rfl
  | cons b P ih => rw [List.map_cons, dFlags_cons_eq, ih]

theorem blocksGo_append_deep {d : Nat} :
    ∀ (l1 : List (Nat × Bool)) (cur : List Bool) (l2 : List (Nat × Bool)),
    (∀ p ∈ l1, d ≤ p.1) →
    blocksGo d cur (l1 ++ l2) = blocksGo d (cur ++ dFlags d l1) l2 := by
  intro l1
  induction l1 with
  | nil => intro cur l2 _; rw [List.nil_append, dFlags, List.append_nil]
  | cons p l1 ih =>
      intro cur l2 h
      obtain ⟨k, g⟩ := p
      have hd : d ≤ k := h (k, g) (List.mem_cons_self _ _)
      rw [List.cons_append, blocksGo_cons, if_neg (by omega)]
      by_cases he : k = d
      · subst he
        rw [if_pos rfl, ih _ _ fun q hq => h q (List.mem_cons_of_mem _ hq),
          dFlags_cons_eq, List.append_assoc, List.singleton_append]
      · rw [if_neg he, ih _ _ fun q hq => h q (List.mem_cons_of_mem _ hq),
          dFlags_cons_ne g _ he]

theorem blocksGo_all_deep {d : Nat} {l : List (Nat × Bool)} (cur : List Bool)
    (h : ∀ p ∈ l, d ≤ p.1) :
    blocksGo d cur l = [cur ++ dFlags d l] := by
  have h2 := blocksGo_append_deep l cur [] h
  rw [List.append_nil] at h2
  rw [h2, blocksGo_nil]

theorem blocksGo_shallow {d : Nat} :
    ∀ (l : List (Nat × Bool)) (cur : List Bool), (∀ p ∈ l, p.1 < d) →
    ∀ b ∈ blocksGo d cur l, b = cur ∨ b = [] := by
  intro l
  induction l with
  | nil =>
      intro cur _ b hb
      rw [blocksGo_nil] at hb
      exact Or.inl (List.mem_singleton.mp hb)
  | cons p l ih =>
      intro cur h b hb
      obtain ⟨k, g⟩ := p
      rw [blocksGo_cons, if_pos (h (k, g) (List.mem_cons_self _ _))] at hb
      rcases List.mem_cons.mp hb with h1 | h1
      · exact Or.inl h1
      · rcases ih [] (fun q hq => h q (List.mem_cons_of_mem _ hq)) b h1 with h2 | h2
        · exact Or.inr h2
        · exact Or.inr h2

theorem okBlock_nil : okBlock [] := Or.inl rfl

theorem okBlock_pattern (m : Nat) : okBlock (List.replicate m false ++ [true]) := by
  right
  have h : (List.replicate m false ++ [true]).length - 1 = m := by simp
  rw [h]

theorem blocksGo_flush {d : Nat} {rest : List (Nat × Bool)} {cur : List Bool}
    (hs : startsShallow d rest) (hc : okBlock cur)
    (hr : ∀ b ∈ blocksGo d [] rest, okBlock b) :
    ∀ b ∈ blocksGo d cur rest, okBlock b := by
  rcases hs with h0 | ⟨k, g, r, he, hk⟩
  · subst h0
    intro b hb
    rw [blocksGo_nil] at hb
    rw [List.mem_singleton.mp hb]
    exact hc
  · subst he
    intro b hb
    rw [blocksGo_cons, if_pos hk] at hb
    rcases List.mem_cons.mp hb with h1 | h1
    · rw [h1]; exact hc
    · exact hr b (by rw [blocksGo_cons, if_pos hk]; exact List.mem_cons_of_mem _ h1)

/- ===================================================================
   Part 21.  Connector structure of layer sequences. -/

theorem TailOk_depths {t : List (Nat × Bool)} (ht : TailOk t) :
    ∀ p ∈ t, 2 ≤ p.1 ∧ p.1 ≤ 3 := by
  rcases ht with h0 | ⟨m, h1⟩
  · subst h0; intro p hp; cases hp
  · subst h1
    intro p hp
    rcases List.mem_cons.mp hp with h2 | h2
    · rw [h2]; exact ⟨by omega, by omega⟩
    · obtain ⟨b, _, hb⟩ := List.mem_map.mp h2
      rw [← hb]
      exact ⟨by omega, by omega⟩

theorem LayerBlocks_depths {es : List (Nat × Bool)} {n : Nat}
    (h : LayerBlocks es n) : ∀ p ∈ es, 1 ≤ p.1 ∧ p.1 ≤ 3 := by
  induction h with
  | nil => intro p hp; cases hp
  | one t ht =>
      intro p hp
      rcases List.mem_cons.mp hp with h1 | h1
      · rw [h1]; exact ⟨by omega, by omega⟩
      · have h2 := TailOk_depths ht p h1
        exact ⟨by omega, h2.2⟩
  | more t rest n ht hlb ih =>
      intro p hp
      rcases List.mem_cons.mp hp with h1 | h1
      · rw [h1]; exact ⟨by omega, by omega⟩
      · rcases List.mem_append.mp h1 with h2 | h2
        · have h3 := TailOk_depths ht p h2
          exact ⟨by omega, h3.2⟩
        · exact ih p h2

theorem LayerBlocks_head {es : List (Nat × Bool)} {n : Nat}
    (h : LayerBlocks es (n + 1)) : ∃ g t, es = (1, g) :: t := by
  cases h with
  | one t ht => exact ⟨true, t, rfl⟩
  | more t rest m ht hlb => exact ⟨false, t ++ rest, rfl⟩

theorem LayerBlocks_dFlags1 {es : List (Nat × Bool)} {n : Nat}
    (h : LayerBlocks es n) :
    dFlags 1 es = (if n = 0 then [] else List.replicate (n - 1) false ++ [true]) := by
  induction h with
  | nil => rfl
  | one t ht =>
      rw [if_neg (by omega : (1 : Nat) ≠ 0), dFlags_cons_eq,
        dFlags_of_ne fun p hp => by have h2 := TailOk_depths ht p hp; omega]
      rfl
  | more t rest n ht hlb ih =>
      rw [if_neg (by omega : n + 2 ≠ 0), dFlags_cons_eq, dFlags_append,
        dFlags_of_ne fun p hp => by have h2 := TailOk_depths ht p hp; omega,
        List.nil_append, ih, if_neg (by omega : n + 1 ≠ 0)]
      have h1 : n + 1 - 1 = n := by omega
      have h2 : n + 2 - 1 = n + 1 := by omega
      rw [h1, h2, List.replicate_succ, List.cons_append]

theorem TailOk_blocks2 {t : List (Nat × Bool)} (ht : TailOk t)
    {rest : List (Nat × Bool)} (hs : startsShallow 2 rest)
    (hr : ∀ b ∈ blocksGo 2 [] rest, okBlock b) :
    ∀ b ∈ blocksGo 2 [] (t ++ rest), okBlock b := by
  rcases ht with h0 | ⟨m, h1⟩
  · subst h0
    rw [List.nil_append]
    exact hr
  · subst h1
    intro b hb
    rw [List.cons_append, blocksGo_cons, if_neg (by omega), if_pos rfl,
      blocksGo_append_deep _ _ _ (fun p hp => by
        obtain ⟨c, _, hc⟩ := List.mem_map.mp hp
        rw [← hc]; omega),
      dFlags_of_ne (fun p hp => by
        obtain ⟨c, _, hc⟩ := List.mem_map.mp hp
        rw [← hc]; omega),
      List.nil_append, List.append_nil] at hb
    exact blocksGo_flush hs (okBlock_pattern 0) hr b hb

theorem TailOk_blocks3 {t : List (Nat × Bool)} (ht : TailOk t)
    {rest : List (Nat × Bool)} (hs : startsShallow 3 rest)
    (hr : ∀ b ∈ blocksGo 3 [] rest, okBlock b) :
    ∀ b ∈ blocksGo 3 [] (t ++ rest), okBlock b := by
  rcases ht with h0 | ⟨m, h1⟩
  · subst h0
    rw [List.nil_append]
    exact hr
  · subst h1
    intro b hb
    rw [List.cons_append, blocksGo_cons, if_pos (by omega),
      blocksGo_append_deep _ _ _ (fun p hp => by
        obtain ⟨c, _, hc⟩ := List.mem_map.mp hp
        rw [← hc]),
      dFlags_map_self, List.nil_append] at hb
    rcases List.mem_cons.mp hb with h2 | h2
    · rw [h2]; exact okBlock_nil
    · exact blocksGo_flush hs (okBlock_pattern m) hr b h2

theorem LayerBlocks_blocks2 {es : List (Nat × Bool)} {n : Nat}
    (h : LayerBlocks es n) :
    ∀ rest : List (Nat × Bool), startsShallow 2 rest →
    (∀ b ∈ blocksGo 2 [] rest, okBlock b) →
    ∀ b ∈ blocksGo 2 [] (es ++ rest), okBlock b := by
  induction h with
  | nil =>
      intro rest _ hr
      rw [List.nil_append]
      exact hr
  | one t ht =>
      intro rest hs hr b hb
      rw [List.cons_append, blocksGo_cons, if_pos (by omega)] at hb
      rcases List.mem_cons.mp hb with h1 | h1
      · rw [h1]; exact okBlock_nil
      · exact TailOk_blocks2 ht hs hr b h1
  | more t rest' n ht hlb ih =>
      intro rest hs hr b hb
      rw [List.cons_append, blocksGo_cons, if_pos (by omega),
        List.append_assoc] at hb
      rcases List.mem_cons.mp hb with h1 | h1
      · rw [h1]; exact okBlock_nil
      · refine TailOk_blocks2 ht ?_ (ih rest hs hr) b h1
        obtain ⟨g, t2, he⟩ := LayerBlocks_head hlb
        exact Or.inr ⟨1, g, t2 ++ rest, by rw [he, List.cons_append], by omega⟩

theorem LayerBlocks_blocks3 {es : List (Nat × Bool)} {n : Nat}
    (h : LayerBlocks es n) :
    ∀ rest : List (Nat × Bool), startsShallow 3 rest →
    (∀ b ∈ blocksGo 3 [] rest, okBlock b) →
    ∀ b ∈ blocksGo 3 [] (es ++ rest), okBlock b := by
  induction h with
  | nil =>
      intro rest _ hr
      rw [List.nil_append]
      exact hr
  | one t ht =>
      intro rest hs hr b hb
      rw [List.cons_append, blocksGo_cons, if_pos (by omega)] at hb
      rcases List.mem_cons.mp hb with h1 | h1
      · rw [h1]; exact okBlock_nil
      · exact TailOk_blocks3 ht hs hr b h1
  | more t rest' n ht hlb ih =>
      intro rest hs hr b hb
      rw [List.cons_append, blocksGo_cons, if_pos (by omega),
        List.append_assoc] at hb
      rcases List.mem_cons.mp hb with h1 | h1
      · rw [h1]; exact okBlock_nil
      · refine TailOk_blocks3 ht ?_ (ih rest hs hr) b h1
        obtain ⟨g, t2, he⟩ := LayerBlocks_head hlb
        exact Or.inr ⟨1, g, t2 ++ rest, by rw [he, List.cons_append], by omega⟩

/- ===================================================================
   Part 22.  Connector structure of the room renderer's pieces. -/

theorem renderLayer_conn {isLast : Bool} {i : Nat} {layer : PyVal}
    {ls : List (List Char)} (h : renderLayer isLast i layer = some ls) :
    ∃ t, ls.map lineConn = some (1, isLast) :: t.map some ∧ TailOk t := by
  cases layer with
  | none => cases h
  | bool b => cases h
  | int n => cases h
  | str s => cases h
  | list xs => cases h
  | dict xs =>
      simp only [renderLayer] at h
      cases hT : pdGetD xs (cs "__type")
          (pdGetD xs (cs "modelName") (PyVal.str (cs "Unknown"))) with
      | none => simp only [hT] at h; cases h
      | bool b => simp only [hT] at h; cases h
      | int n => simp only [hT] at h; cases h
      | list ys => simp only [hT] at h; cases h
      | dict ys => simp only [hT] at h; cases h
      | str ts =>
          simp only [hT] at h
          by_cases hts : ts = cs "GMInstanceLayer"
          · rw [if_pos hts] at h
            cases hI : instChunk (if isLast then blankPfx else contPfx)
                (pdGetD xs (cs "instances") (PyVal.list PyList.nil)) with
            | none => rw [hI] at h; cases h
            | some r =>
                rw [hI, Option.map_some'] at h
                have hls := (Option.some.inj h).symm
                rcases instChunk_conn hI with hr0 | ⟨instLine, objLs, m, hre, hic, hoc⟩
                · subst hr0
                  refine ⟨[], ?_, Or.inl rfl⟩
                  rw [hls, List.map_cons]
                  congr 1
                  simp only [List.append_assoc]
                  rw [lineConn_layer_base]
                · rw [hre] at hls
                  refine ⟨(2, true) ::
                    (List.replicate m false ++ [true]).map (fun b => (3, b)), ?_,
                    Or.inr ⟨m, rfl⟩⟩
                  rw [hls, List.map_cons, List.map_cons, hic, hoc]
                  congr 1
                  · simp only [List.append_assoc]
                    rw [lineConn_layer_base]
                  · rw [List.map_cons, List.map_map]
                    rfl
          · rw [if_neg hts] at h
            have hls := (Option.some.inj h).symm
            refine ⟨[], ?_, Or.inl rfl⟩
            rw [hls, List.map_cons]
            congr 1
            simp only [List.append_assoc]
            rw [lineConn_layer_base]

theorem renderLayersLoop_conn : ∀ (items : PyList) (i : Nat) (ls : List (List Char)),
    renderLayersLoop i items = some ls →
    ∃ es, ls.map lineConn = es.map some ∧ LayerBlocks es items.length
  | PyList.nil, i, ls, h => by
      have h2 := Option.some.inj h
      subst h2
      exact ⟨[], rfl, LayerBlocks.nil⟩
  | PyList.cons l PyList.nil, i, ls, h => by
      simp only [renderLayersLoop, Option.bind_eq_bind] at h
      cases h1 : renderLayer (PyList.isNil PyList.nil) i l with
      | none => simp [h1] at h
      | some a =>
      simp only [h1, Option.some_bind, Option.some_bind] at h
      have hls := (Option.some.inj h).symm
      obtain ⟨t, hat, ht⟩ := renderLayer_conn h1
      refine ⟨(1, true) :: t, ?_, LayerBlocks.one t ht⟩
      rw [hls, List.append_nil, hat]
      rfl
  | PyList.cons l (PyList.cons l2 r2), i, ls, h => by
      have hstep : renderLayersLoop i (PyList.cons l (PyList.cons l2 r2)) =
          Option.bind (renderLayer (PyList.cons l2 r2).isNil i l) fun a =>
            Option.bind (renderLayersLoop (i + 1) (PyList.cons l2 r2)) fun b =>
              some (a ++ b) := rfl
      rw [hstep] at h
      cases h1 : renderLayer (PyList.isNil (PyList.cons l2 r2)) i l with
      | none => rw [h1] at h; cases h
      | some a =>
      rw [h1] at h
      cases h2 : renderLayersLoop (i + 1) (PyList.cons l2 r2) with
      | none => rw [h2] at h; cases h
      | some b =>
      rw [h2] at h
      have hls := (Option.some.inj h).symm
      obtain ⟨t, hat, ht⟩ := renderLayer_conn h1
      obtain ⟨es', hbt, hlb⟩ := renderLayersLoop_conn (PyList.cons l2 r2) (i + 1) b h2
      refine ⟨(1, false) :: (t ++ es'), ?_, LayerBlocks.more t es' r2.length ht hlb⟩
      rw [hls, List.map_append, hat, hbt, List.map_cons, List.map_append]
      rfl

theorem propItemLines_conn : ∀ items : List (List Char),
    (propItemLines items).map lineConn =
      (lastFlags items).map (fun b => some (1, b)) := by
  intro items
  induction items with
  | nil => rfl
  | cons t rest ih =>
      have hline : lineConn (blankPfx ++ (if rest = [] then glyphEnd else glyphMid) ++
          ' ' :: t) = some (1, rest.isEmpty) := by
        simp only [List.append_assoc]
        rw [lineConn_blank]
        by_cases hr : rest = []
        · rw [if_pos hr, lineConn_end, hr]
          rfl
        · rw [if_neg hr, lineConn_mid]
          have h2 : rest.isEmpty = false := by
            cases rest with
            | nil => exact absurd rfl hr
            | cons a r => rfl
          rw [h2]
          rfl
      show lineConn (blankPfx ++ (if rest = [] then glyphEnd else glyphMid) ++
          ' ' :: t) :: (propItemLines rest).map lineConn =
        some (1, rest.isEmpty) :: (lastFlags rest).map (fun b => some (1, b))
      rw [hline, ih]

theorem pyTruthy_pdGetD_congr (xs : PyDict) (key : List Char) {d1 d2 : PyVal}
    (h : pyTruthy d1 = pyTruthy d2) :
    pyTruthy (pdGetD xs key d1) = pyTruthy (pdGetD xs key d2) := by
  unfold pdGetD
  cases dlookup xs key with
  | none => exact h
  | some v => rfl

theorem propsChunk_lines (items : List (List Char)) (hne : items ≠ []) :
    ((glyphEnd ++ ' ' :: cs "Properties") :: propItemLines items).map lineConn =
      some (0, true) ::
        (List.replicate (items.length - 1) false ++ [true]).map (fun b => some (1, b)) := by
  rw [List.map_cons, propItemLines_conn, lastFlags_eq _ hne, lineConn_end]

theorem roomPropsChunk_conn {xs : PyDict} {ps : List (List Char)}
    (h : roomPropsChunk xs = some ps) :
    (pyTruthy (pdGetD xs (cs "roomSettings") (PyVal.dict PyDict.nil)) = false ∧
      ps = []) ∨
    (pyTruthy (pdGetD xs (cs "roomSettings") (PyVal.dict PyDict.nil)) = true ∧
      ∃ k, ps.map lineConn =
        some (0, true) ::
          (List.replicate k false ++ [true]).map (fun b => some (1, b))) := by
  simp only [roomPropsChunk] at h
  by_cases ht : pyTruthy (pdGetD xs (cs "roomSettings") (PyVal.dict PyDict.nil)) = true
  · rw [if_pos ht] at h
    right
    refine ⟨ht, ?_⟩
    cases hrs : pdGetD xs (cs "roomSettings") (PyVal.dict PyDict.nil) with
    | none => rw [hrs] at h; cases h
    | bool b => rw [hrs] at h; cases h
    | int n => rw [hrs] at h; cases h
    | str s => rw [hrs] at h; cases h
    | list ys => rw [hrs] at h; cases h
    | dict ys =>
        rw [hrs] at h
        simp only [Option.bind_eq_bind] at h
        by_cases hcc : pyTruthy (pdGetD xs (cs "creationCodeFile") (PyVal.str [])) = true
        · rw [if_pos hcc] at h
          cases hccv : pdGetD xs (cs "creationCodeFile") (PyVal.str []) with
          | none => rw [hccv] at h; cases h
          | bool b => rw [hccv] at h; cases h
          | int n => rw [hccv] at h; cases h
          | list zs => rw [hccv] at h; cases h
          | dict zs => rw [hccv] at h; cases h
          | str s =>
              rw [hccv] at h
              simp only [Option.some_bind] at h
              have hps := (Option.some.inj h).symm
              refine ⟨4, ?_⟩
              rw [hps, propsChunk_lines _ (by simp)]
              simp
        · rw [if_neg hcc] at h
          simp only [Option.some_bind] at h
          have hps := (Option.some.inj h).symm
          refine ⟨3, ?_⟩
          rw [hps, propsChunk_lines _ (by simp)]
          simp
  · rw [if_neg ht] at h
    left
    have ht0 : pyTruthy (pdGetD xs (cs "roomSettings") (PyVal.dict PyDict.nil)) = false := by
      cases htb : pyTruthy (pdGetD xs (cs "roomSettings") (PyVal.dict PyDict.nil))
      · rfl
      · exact absurd htb ht
    exact ⟨ht0, (Option.some.inj h).symm⟩

theorem formatRoomLines_eq {xs : PyDict} {L : List (List Char)}
    (h : formatRoomLines (PyVal.dict xs) = some L) :
    ∃ n items ls ps,
      pyLen (pdGetD xs (cs "layers") (PyVal.list PyList.nil)) = some n ∧
      asIter (pdGetD xs (cs "layers") (PyVal.list PyList.nil)) = some items ∧
      renderLayersLoop 0 items = some ls ∧
      roomPropsChunk xs = some ps ∧
      L = pyStr (pdGetD xs (cs "name") (PyVal.str (cs "Unknown Room"))) ::
          ((if pyTruthy (pdGetD xs (cs "roomSettings") PyVal.none) ||
              !isNoneV (pdGetD xs (cs "isPersistent") PyVal.none)
            then glyphMid else glyphEnd) ++
           ' ' :: cs "Layers (" ++ natChars n ++ [')']) ::
          (ls ++ ps) := by
  simp only [formatRoomLines, Option.bind_eq_bind] at h
  cases h1 : pyLen (pdGetD xs (cs "layers") (PyVal.list PyList.nil)) with
  | none => simp [h1] at h
  | some n =>
  simp only [h1, Option.some_bind] at h
  cases h2 : asIter (pdGetD xs (cs "layers") (PyVal.list PyList.nil)) with
  | none => simp [h2] at h
  | some items =>
  simp only [h2, Option.some_bind] at h
  cases h3 : renderLayersLoop 0 items with
  | none => simp [h3] at h
  | some ls =>
  simp only [h3, Option.some_bind] at h
  cases h4 : roomPropsChunk xs with
  | none => simp [h4] at h
  | some ps =>
  simp only [h4, Option.some_bind] at h
  exact ⟨n, items, ls, ps, rfl, rfl, h3, rfl, (Option.some.inj h).symm⟩

theorem filterMap_of_map_some {α β : Type} {f : α → Option β} :
    ∀ {l : List α} {es : List β}, l.map f = es.map some → l.filterMap f = es := by
  intro l
  induction l with
  | nil =>
      intro es h
      cases es with
      | nil => rfl
      | cons e es => cases h
  | cons a l ih =>
      intro es h
      cases es with
      | nil => cases h
      | cons e es =>
          injection h with h1 h2
          simp only [List.filterMap_cons, h1]
          rw [ih h2]

theorem roomSeq_blocks_ok {es : List (Nat × Bool)} {nL : Nat}
    (hlb : LayerBlocks es nL) (gh : Bool) (tail0 : List (Nat × Bool))
    (htail : (gh = true ∧ tail0 = []) ∨
      (gh = false ∧ ∃ k, tail0 = (0, true) ::
        (List.replicate k false ++ [true]).map (fun b => (1, b)))) :
    ∀ (d : Nat) (b : List Bool),
      b ∈ blocksGo d [] ((0, gh) :: (es ++ tail0)) → okBlock b := by
  have hes : ∀ p ∈ es, 1 ≤ p.1 ∧ p.1 ≤ 3 := LayerBlocks_depths hlb
  have htl1 : ∀ p ∈ tail0, p.1 ≤ 1 := by
    rcases htail with ⟨_, h0⟩ | ⟨_, k, h0⟩
    · subst h0; intro p hp; cases hp
    · subst h0
      intro p hp
      rcases List.mem_cons.mp hp with h1 | h1
      · rw [h1]; omega
      · obtain ⟨c, _, hc⟩ := List.mem_map.mp h1
        rw [← hc]
  intro d
  rcases d with _ | _ | _ | _ | d
  · intro b hb
    rw [blocksGo_all_deep [] (fun p _ => Nat.zero_le _), List.nil_append,
      dFlags_cons_eq, dFlags_append,
      dFlags_of_ne (fun p hp => by have h2 := hes p hp; omega),
      List.nil_append] at hb
    rcases htail with ⟨hg, h0⟩ | ⟨hg, k, h0⟩
    · subst h0; subst hg
      rw [List.mem_singleton.mp hb]
      exact okBlock_pattern 0
    · subst h0; subst hg
      rw [dFlags_cons_eq,
        dFlags_of_ne (fun p hp => by
          obtain ⟨c, _, hc⟩ := List.mem_map.mp hp
          rw [← hc]; omega)] at hb
      rw [List.mem_singleton.mp hb]
      exact okBlock_pattern 1
  · intro b hb
    rw [blocksGo_cons, if_pos (by omega)] at hb
    rcases List.mem_cons.mp hb with h1 | h1
    · rw [h1]; exact okBlock_nil
    · rw [blocksGo_append_deep _ _ _ (fun p hp => (hes p hp).1),
        List.nil_append] at h1
      rcases htail with ⟨_, h0⟩ | ⟨_, k, h0⟩
      · subst h0
        rw [blocksGo_nil] at h1
        rw [List.mem_singleton.mp h1, LayerBlocks_dFlags1 hlb]
        by_cases hn : nL = 0
        · rw [if_pos hn]; exact okBlock_nil
        · rw [if_neg hn]; exact okBlock_pattern (nL - 1)
      · subst h0
        rw [blocksGo_cons, if_pos (by omega)] at h1
        rcases List.mem_cons.mp h1 with h2 | h2
        · rw [h2, LayerBlocks_dFlags1 hlb]
          by_cases hn : nL = 0
          · rw [if_pos hn]; exact okBlock_nil
          · rw [if_neg hn]; exact okBlock_pattern (nL - 1)
        · rw [blocksGo_all_deep [] (fun p hp => by
              obtain ⟨c, _, hc⟩ := List.mem_map.mp hp
              rw [← hc]),
            List.nil_append, dFlags_map_self] at h2
          rw [List.mem_singleton.mp h2]
          exact okBlock_pattern k
  · intro b hb
    rw [blocksGo_cons, if_pos (by omega)] at hb
    rcases List.mem_cons.mp hb with h1 | h1
    · rw [h1]; exact okBlock_nil
    · refine LayerBlocks_blocks2 hlb tail0 ?_ ?_ b h1
      · rcases htail with ⟨_, h0⟩ | ⟨_, k, h0⟩
        · exact Or.inl h0
        · exact Or.inr ⟨0, true, _, h0, by omega⟩
      · rcases htail with ⟨_, h0⟩ | ⟨_, k, h0⟩
        · subst h0
          intro b2 hb2
          rw [blocksGo_nil] at hb2
          rw [List.mem_singleton.mp hb2]
          exact okBlock_nil
        · subst h0
          intro b2 hb2
          rw [blocksGo_cons, if_pos (by omega)] at hb2
          rcases List.mem_cons.mp hb2 with h2 | h2
          · rw [h2]; exact okBlock_nil
          · rcases blocksGo_shallow _ [] (fun p hp => by
                obtain ⟨c, _, hc⟩ := List.mem_map.mp hp
                rw [← hc]; omega) b2 h2 with h3 | h3
            · rw [h3]; exact okBlock_nil
            · rw [h3]; exact okBlock_nil
  · intro b hb
    rw [blocksGo_cons, if_pos (by omega)] at hb
    rcases List.mem_cons.mp hb with h1 | h1
    · rw [h1]; exact okBlock_nil
    · refine LayerBlocks_blocks3 hlb tail0 ?_ ?_ b h1
      · rcases htail with ⟨_, h0⟩ | ⟨_, k, h0⟩
        · exact Or.inl h0
        · exact Or.inr ⟨0, true, _, h0, by omega⟩
      · rcases htail with ⟨_, h0⟩ | ⟨_, k, h0⟩
        · subst h0
          intro b2 hb2
          rw [blocksGo_nil] at hb2
          rw [List.mem_singleton.mp hb2]
          exact okBlock_nil
        · subst h0
          intro b2 hb2
          rw [blocksGo_cons, if_pos (by omega)] at hb2
          rcases List.mem_cons.mp hb2 with h2 | h2
          · rw [h2]; exact okBlock_nil
          · rcases blocksGo_shallow _ [] (fun p hp => by
                obtain ⟨c, _, hc⟩ := List.mem_map.mp hp
                rw [← hc]; omega) b2 h2 with h3 | h3
            · rw [h3]; exact okBlock_nil
            · rw [h3]; exact okBlock_nil
  · intro b hb
    rcases blocksGo_shallow _ [] (fun p hp => by
        rcases List.mem_cons.mp hp with h1 | h1
        · rw [h1]; omega
        · rcases List.mem_append.mp h1 with h2 | h2
          · have h3 := hes p h2; omega
          · have h3 := htl1 p h2; omega) b hb with h3 | h3
    · rw [h3]; exact okBlock_nil
    · rw [h3]; exact okBlock_nil

/-- Claim C3, amended: for every record rendered by the room renderer in
which a present persistence flag comes with truthy room settings, every
sibling group of connector glyphs, at every depth of the tree below the
name line, is either empty or consists of branch glyphs with a single
terminal glyph in the last position.  (Without the proviso the top-level
group can end on a branch glyph: a record with `isPersistent` but falsy
`roomSettings` announces a `Properties` sibling that is never emitted.) -/
theorem room_connector_blocks (v : PyVal) (L : List (List Char))
    (h : formatRoomLines v = some L) (hp : persistProviso v)
    (d : Nat) (b : List Bool) (hb : b ∈ blocksAtDepth d L.tail) : okBlock b := by
  cases v with
  | none => cases h
  | bool c => cases h
  | int m => cases h
  | str s => cases h
  | list xs => cases h
  | dict xs =>
      obtain ⟨n, items, ls, ps, h1, h2, h3, h4, hL⟩ := formatRoomLines_eq h
      obtain ⟨es, hmap, hlb⟩ := renderLayersLoop_conn items 0 ls h3
      have hp' : isNoneV (pdGetD xs (cs "isPersistent") PyVal.none) = false →
          pyTruthy (pdGetD xs (cs "roomSettings") PyVal.none) = true := hp
      have hbridge : pyTruthy (pdGetD xs (cs "roomSettings") PyVal.none) =
          pyTruthy (pdGetD xs (cs "roomSettings") (PyVal.dict PyDict.nil)) :=
        pyTruthy_pdGetD_congr xs _ rfl
      subst hL
      simp only [List.tail_cons] at hb
      rcases roomPropsChunk_conn h4 with ⟨hfalse, hps⟩ | ⟨htrue, k, hpsmap⟩
      · subst hps
        have hNone : isNoneV (pdGetD xs (cs "isPersistent") PyVal.none) = true := by
          cases hn : isNoneV (pdGetD xs (cs "isPersistent") PyVal.none)
          · have h5 := hp' hn
            rw [hbridge, hfalse] at h5
            exact h5
          · rfl
        have hBfalse : (pyTruthy (pdGetD xs (cs "roomSettings") PyVal.none) ||
            !isNoneV (pdGetD xs (cs "isPersistent") PyVal.none)) = false := by
          rw [hbridge, hfalse, hNone]
          rfl
        rw [hBfalse,
          show (if (false : Bool) = true then glyphMid else glyphEnd) = glyphEnd
            from rfl] at hb
        have hl : lineConn (glyphEnd ++ ' ' :: cs "Layers (" ++ natChars n ++ [')']) =
            some (0, true) := by
          simp only [List.append_assoc]
          rw [lineConn_end]
        simp only [blocksAtDepth, connSeq, List.filterMap_cons, hl,
          List.filterMap_append, List.filterMap_nil] at hb
        rw [filterMap_of_map_some hmap] at hb
        exact roomSeq_blocks_ok hlb true [] (Or.inl ⟨rfl, rfl⟩) d b hb
      · have hBtrue : (pyTruthy (pdGetD xs (cs "roomSettings") PyVal.none) ||
            !isNoneV (pdGetD xs (cs "isPersistent") PyVal.none)) = true := by
          rw [hbridge, htrue]
          rfl
        rw [hBtrue,
          show (if (true : Bool) = true then glyphMid else glyphEnd) = glyphMid
            from rfl] at hb
        have hl : lineConn (glyphMid ++ ' ' :: cs "Layers (" ++ natChars n ++ [')']) =
            some (0, false) := by
          simp only [List.append_assoc]
          rw [lineConn_mid]
        have hps2 : ps.filterMap lineConn = (0, true) ::
            (List.replicate k false ++ [true]).map (fun b => (1, b)) := by
          apply filterMap_of_map_some
          rw [hpsmap, List.map_cons, List.map_map]
          rfl
        simp only [blocksAtDepth, connSeq, List.filterMap_cons, hl,
          List.filterMap_append] at hb
        rw [filterMap_of_map_some hmap, hps2] at hb
        exact roomSeq_blocks_ok hlb false
          ((0, true) :: (List.replicate k false ++ [true]).map (fun b => (1, b)))
          (Or.inr ⟨rfl, k, rfl⟩) d b hb

/-- Witness for the amended claim C3 at the empty room record: its two
rendered lines carry a single depth-0 sibling group `[true]`. -/
theorem room_connector_blocks_witness : okBlock [true] :=
  room_connector_blocks (PyVal.dict PyDict.nil)
    [cs "Unknown Room", glyphEnd ++ ' ' :: cs "Layers (0)"]
    (by decide) (by decide) 0 [true] (by decide)

/-- Counterexample to claim C3 as stated: the record
`{"isPersistent": false}` renders with a `├──` Layers header and nothing
after it, so the depth-0 sibling group is `[false]` — no terminal glyph at
all at that depth. -/
theorem room_connector_counterexample :
    formatRoomLines rmPersistOnly =
      some [cs "Unknown Room", glyphMid ++ ' ' :: cs "Layers (0)"] ∧
    blocksAtDepth 0 ([cs "Unknown Room", glyphMid ++ ' ' :: cs "Layers (0)"].tail) =
      [[false]] ∧
    decide (okBlock [false]) = false :=
  ⟨by decide, by decide, by decide⟩

/- ===================================================================
   Part 23.  Count/section observations for the round-trip claim. -/

theorem strToPyList_length : ∀ s : List Char, (strToPyList s).length = s.length := by
  intro s
  induction s with
  | nil => rfl
  | cons c rest ih => simp [strToPyList, PyList.length, ih]

theorem keys_length : ∀ xs : PyDict, (PyDict.keys xs).length = xs.length
  | PyDict.nil => rfl
  | PyDict.cons k v rest => by
      simp [PyDict.keys, PyList.length, PyDict.length, keys_length rest]

theorem pyLen_asIter {v : PyVal} {items : PyList} (h : asIter v = some items) :
    pyLen v = some items.length := by
  cases v with
  | none => cases h
  | bool b => cases h
  | int n => cases h
  | str s =>
      rw [asIter] at h
      rw [pyLen, ← Option.some.inj h, strToPyList_length]
  | list xs =>
      rw [asIter] at h
      rw [pyLen, ← Option.some.inj h]
  | dict xs =>
      rw [asIter] at h
      rw [pyLen, ← Option.some.inj h, keys_length]

theorem pyLen_falsy {v : PyVal} {n : Nat} (ht : pyTruthy v = false)
    (h : pyLen v = some n) : n = 0 := by
  cases v with
  | none => cases h
  | bool b => cases h
  | int m => cases h
  | str s =>
      cases s with
      | nil => rw [pyLen] at h; rw [← Option.some.inj h]; rfl
      | cons c rest => simp [pyTruthy] at ht
  | list xs =>
      cases xs with
      | nil => rw [pyLen] at h; rw [← Option.some.inj h]; rfl
      | cons a r => simp [pyTruthy, PyList.isNil] at ht
  | dict xs =>
      cases xs with
      | nil => rw [pyLen] at h; rw [← Option.some.inj h]; rfl
      | cons k a r => simp [pyTruthy, PyDict.length] at ht

theorem takeWhile_append_of_all {α : Type} (p : α → Bool) :
    ∀ (xs ys : List α), (∀ x ∈ xs, p x = true) →
    (xs ++ ys).takeWhile p = xs ++ ys.takeWhile p := by
  intro xs ys
  induction xs with
  | nil => intro _; rfl
  | cons x xs ih =>
      intro h
      rw [List.cons_append, List.takeWhile_cons, h x (List.mem_cons_self _ _),
        List.cons_append]
      simp only [if_true]
      rw [ih fun y hy => h y (List.mem_cons_of_mem _ hy)]

theorem countP_isDepth1_eq : ∀ (ls : List (List Char)) (es : List (Nat × Bool)),
    ls.map lineConn = es.map some → ls.countP isDepth1 = (dFlags 1 es).length := by
  intro ls
  induction ls with
  | nil =>
      intro es h
      cases es with
      | nil => rfl
      | cons e es => cases h
  | cons l ls ih =>
      intro es h
      cases es with
      | nil => cases h
      | cons e es =>
          obtain ⟨k, g⟩ := e
          injection h with h1 h2
          by_cases hk : k = 1
          · subst hk
            have hd : isDepth1 l = true := by
              unfold isDepth1 depthOf
              rw [h1]
              rfl
            rw [List.countP_cons, ih es h2, hd, dFlags_cons_eq]
            simp
          · have hd : isDepth1 l = false := by
              unfold isDepth1 depthOf
              rw [h1]
              simp only [Option.map_some']
              exact beq_eq_false_iff_ne.mpr (by simp [hk])
            rw [List.countP_cons, ih es h2, hd, dFlags_cons_ne g _ hk]
            simp

theorem LayerBlocks_dFlags1_length {es : List (Nat × Bool)} {n : Nat}
    (h : LayerBlocks es n) : (dFlags 1 es).length = n := by
  rw [LayerBlocks_dFlags1 h]
  by_cases hn : n = 0
  · rw [if_pos hn, hn]; rfl
  · rw [if_neg hn]
    simp only [List.length_append, List.length_replicate, List.length_singleton]
    omega

theorem isPrefixOf_append_self : ∀ l y : List Char, l.isPrefixOf (l ++ y) = true := by
  intro l y
  induction l with
  | nil => simp [List.isPrefixOf]
  | cons c rest ih => simp [List.isPrefixOf, ih]

theorem isEventsHdr_head_ne {c : Char} (hc : c ≠ '[') (t : List Char) :
    isEventsHdr (c :: t) = false := by
  unfold isEventsHdr
  rw [show cs "[Events (" = '[' :: cs "Events (" from by decide]
  simp only [List.isPrefixOf]
  rw [beq_eq_false_iff_ne.mpr (Ne.symm hc), Bool.false_and]

theorem findFirstP_cons_neg {p : List Char → Bool} {l : List Char}
    (L : List (List Char)) (h : p l = false) :
    findFirstP p (l :: L) = findFirstP p L := by
  rw [findFirstP, h]
  rw [if_neg (by decide : ¬ (false = true))]

theorem findFirstP_cons_pos {p : List Char → Bool} {l : List Char}
    (L : List (List Char)) (h : p l = true) :
    findFirstP p (l :: L) = some l := by
  rw [findFirstP, h]
  rw [if_pos rfl]

theorem afterFirstP_cons_neg {p : List Char → Bool} {l : List Char}
    (L : List (List Char)) (h : p l = false) :
    afterFirstP p (l :: L) = afterFirstP p L := by
  rw [afterFirstP, h]
  rw [if_neg (by decide : ¬ (false = true))]

theorem afterFirstP_cons_pos {p : List Char → Bool} {l : List Char}
    (L : List (List Char)) (h : p l = true) :
    afterFirstP p (l :: L) = L := by
  rw [afterFirstP, h]
  rw [if_pos rfl]

theorem isVarItem_item (s : List Char) : isVarItem (cs "  - " ++ s) = true := by
  unfold isVarItem
  exact isPrefixOf_append_self _ _

theorem lastSection_append (xs ys : List (List Char))
    (h : ∀ y ∈ ys, y ≠ []) :
    lastSection (xs ++ [] :: ys) = ys := by
  unfold lastSection
  rw [List.reverse_append, List.reverse_cons,
    List.append_assoc, List.singleton_append,
    takeWhile_append_of_all _ _ _ (fun y hy => by
      have hy2 := h y (List.mem_reverse.mp hy)
      cases y with
      | nil => exact absurd rfl hy2
      | cons a r => rfl)]
  rw [List.takeWhile_cons]
  simp

theorem objVarLines_shape : ∀ (items : PyList) (vls : List (List Char)),
    objVarLines items = some vls →
    vls.length = items.length ∧ ∀ l ∈ vls, ∃ s, l = cs "  - " ++ s
  | PyList.nil, vls, h => by
      have h2 := Option.some.inj h
      subst h2
      exact ⟨rfl, fun l hl => absurd hl (List.not_mem_nil l)⟩
  | PyList.cons p rest, vls, h => by
      simp only [objVarLines, Option.bind_eq_bind] at h
      cases h1 : objVarLine p with
      | none => simp [h1] at h
      | some a =>
      simp only [h1, Option.some_bind] at h
      cases h2 : objVarLines rest with
      | none => simp [h2] at h
      | some b =>
      simp only [h2, Option.some_bind] at h
      have hv := (Option.some.inj h).symm
      subst hv
      obtain ⟨hlen, hall⟩ := objVarLines_shape rest b h2
      refine ⟨by simp [List.length_cons, hlen, PyList.length], ?_⟩
      intro l hl
      rcases List.mem_cons.mp hl with h3 | h3
      · subst h3
        cases p with
        | none => cases h1
        | bool c => cases h1
        | int m => cases h1
        | str s => cases h1
        | list zs => cases h1
        | dict zs =>
            rw [objVarLine] at h1
            have hEq := (Option.some.inj h1).symm
            refine ⟨pyStr (pdGetD zs (cs "name")
                (pdGetD zs (cs "varName") (PyVal.str (cs "UnknownVar")))) ++
              (cs " = " ++ (pyStr (pdGetD zs (cs "value")
                (pdGetD zs (cs "varValue") (PyVal.str (cs "UnknownVal")))) ++
              (cs " (Type: " ++ (pyStr (pdGetD zs (cs "type")
                (pdGetD zs (cs "varType") (PyVal.str ['?']))) ++ [')'])))), ?_⟩
            rw [hEq]
            simp [List.append_assoc]
      · exact hall l h3

theorem map_some_mem {α β : Type} {f : α → Option β} :
    ∀ {l : List α} {es : List β}, l.map f = es.map some →
    ∀ x ∈ l, ∃ e ∈ es, f x = some e := by
  intro l
  induction l with
  | nil => intro es _ x hx; cases hx
  | cons a l ih =>
      intro es h x hx
      cases es with
      | nil => cases h
      | cons e es =>
          injection h with h1 h2
          rcases List.mem_cons.mp hx with h3 | h3
          · exact ⟨e, List.mem_cons_self _ _, h3 ▸ h1⟩
          · obtain ⟨e2, he2, hf⟩ := ih h2 x h3
            exact ⟨e2, List.mem_cons_of_mem _ he2, hf⟩

theorem depth_pred_of_ne {l : List Char} {e : Nat × Bool}
    (h : lineConn l = some e) (he : e.1 ≠ 0) :
    (!(depthOf l == some 0)) = true := by
  unfold depthOf
  rw [h, Option.map_some', beq_eq_false_iff_ne.mpr (by simp [he]), Bool.not_false]

theorem room_layers_count (xs : PyDict) (RL : List (List Char))
    (hr : formatRoomLines (PyVal.dict xs) = some RL) :
    ∃ n g, (g = glyphMid ∨ g = glyphEnd) ∧
      RL.tail.head? = some (g ++ ' ' :: cs "Layers (" ++ natChars n ++ [')']) ∧
      (layersSection RL).countP isDepth1 = n := by
  obtain ⟨n, items, ls, ps, h1, h2, h3, h4, hL⟩ := formatRoomLines_eq hr
  obtain ⟨es, hmap, hlb⟩ := renderLayersLoop_conn items 0 ls h3
  subst hL
  refine ⟨n, _, ?_, rfl, ?_⟩
  · cases hB : pyTruthy (pdGetD xs (cs "roomSettings") PyVal.none) ||
        !isNoneV (pdGetD xs (cs "isPersistent") PyVal.none)
    · exact Or.inr rfl
    · exact Or.inl rfl
  · have htw : (ls ++ ps).takeWhile (fun l => !(depthOf l == some 0)) = ls := by
      rw [takeWhile_append_of_all _ _ _ (fun l hl => by
        obtain ⟨e, hees, hce⟩ := map_some_mem hmap l hl
        exact depth_pred_of_ne hce (by have h5 := (LayerBlocks_depths hlb) e hees; omega))]
      rcases roomPropsChunk_conn h4 with ⟨_, hps⟩ | ⟨_, k, hpsmap⟩
      · subst hps
        simp
      · cases ps with
        | nil => cases hpsmap
        | cons psh pst =>
            rw [List.map_cons] at hpsmap
            injection hpsmap with hph _
            rw [List.takeWhile_cons]
            rw [show (!(depthOf psh == some 0)) = false from by
              unfold depthOf
              rw [hph]
              rfl]
            simp
    show ((ls ++ ps).takeWhile (fun l => !(depthOf l == some 0))).countP isDepth1 = n
    rw [htw, countP_isDepth1_eq ls es hmap, LayerBlocks_dFlags1_length hlb]
    have h6 := (pyLen_asIter h2).symm.trans h1
    exact Option.some.inj h6

theorem object_events_sections (ys : PyDict) (OL : List (List Char))
    (ho : formatObjectLines (PyVal.dict ys) = some OL) :
    ∃ m, findFirstP isEventsHdr OL =
        some (cs "[Events (" ++ natChars m ++ cs ")]") ∧
      sectionAtP isEventsHdr OL = [] := by
  obtain ⟨nLen, l1, l2, l3, nEv, nPr, varLines, h0n, hl1, hl2, hl3, h4e, h5p, hvar, hOL⟩ :=
    formatObjectLines_eq ho
  subst hOL
  obtain ⟨s1, hs1⟩ := refNameLine_shape hl1
  obtain ⟨s2, hs2⟩ := refNameLine_shape hl2
  obtain ⟨s3, hs3⟩ := refNameLine_shape hl3
  have e0 : isEventsHdr (cs "Object: " ++
      pyStr (pdGetD ys (cs "name") (PyVal.str (cs "Unknown Object")))) = false := by
    rw [show cs "Object: " = 'O' :: cs "bject: " from by decide, List.cons_append]
    exact isEventsHdr_head_ne (by decide) _
  have e1 : isEventsHdr (List.replicate (nLen + 8) '=') = false := by
    rw [show nLen + 8 = (nLen + 7) + 1 from rfl, List.replicate_succ]
    exact isEventsHdr_head_ne (by decide) _
  have enil : isEventsHdr [] = false := by decide
  have eprops : isEventsHdr (cs "[Properties]") = false := by decide
  have e2 : isEventsHdr l1 = false := by
    rw [hs1, show cs "  Sprite: " = ' ' :: cs " Sprite: " from by decide,
      List.cons_append]
    exact isEventsHdr_head_ne (by decide) _
  have e3 : isEventsHdr l2 = false := by
    rw [hs2, show cs "  Mask: " = ' ' :: cs " Mask: " from by decide,
      List.cons_append]
    exact isEventsHdr_head_ne (by decide) _
  have e4 : isEventsHdr l3 = false := by
    rw [hs3, show cs "  Parent: " = ' ' :: cs " Parent: " from by decide,
      List.cons_append]
    exact isEventsHdr_head_ne (by decide) _
  have ef : ∀ label key d0 : List Char, isEventsHdr (fieldLine ys label key d0) = false := by
    intro label key d0
    rw [fieldLine]
    exact isEventsHdr_head_ne (by decide) _
  have eEv : isEventsHdr (cs "[Events (" ++ natChars nEv ++ cs ")]") = true := by
    unfold isEventsHdr
    rw [List.append_assoc]
    exact isPrefixOf_append_self _ _
  obtain ⟨pb, hpb⟩ : ∃ pb, physBlock ys = [] :: pb := by
    unfold physBlock
    by_cases hph : pyTruthy (pdGetD ys (cs "physicsObject") (PyVal.bool false)) = true
    · rw [if_pos hph]
      exact ⟨_, rfl⟩
    · rw [if_neg hph]
      exact ⟨_, rfl⟩
  refine ⟨nEv, ?_, ?_⟩
  · rw [findFirstP_cons_neg _ e0, findFirstP_cons_neg _ e1, findFirstP_cons_neg _ enil,
      findFirstP_cons_neg _ eprops, findFirstP_cons_neg _ e2, findFirstP_cons_neg _ e3,
      findFirstP_cons_neg _ e4, findFirstP_cons_neg _ (ef _ _ _),
      findFirstP_cons_neg _ (ef _ _ _), findFirstP_cons_neg _ (ef _ _ _),
      findFirstP_cons_neg _ enil, findFirstP_cons_pos _ eEv]
  · unfold sectionAtP
    rw [afterFirstP_cons_neg _ e0, afterFirstP_cons_neg _ e1, afterFirstP_cons_neg _ enil,
      afterFirstP_cons_neg _ eprops, afterFirstP_cons_neg _ e2, afterFirstP_cons_neg _ e3,
      afterFirstP_cons_neg _ e4, afterFirstP_cons_neg _ (ef _ _ _),
      afterFirstP_cons_neg _ (ef _ _ _), afterFirstP_cons_neg _ (ef _ _ _),
      afterFirstP_cons_neg _ enil, afterFirstP_cons_pos _ eEv,
      hpb, List.cons_append, List.takeWhile_cons]
    simp

theorem object_vars_count (ys : PyDict) (OL : List (List Char))
    (ho : formatObjectLines (PyVal.dict ys) = some OL) :
    ∃ q vlines, lastSection OL =
        (cs "[Object Variables (" ++ natChars q ++ cs ")]") :: vlines ∧
      vlines.countP isVarItem = q := by
  obtain ⟨nLen, l1, l2, l3, nEv, nPr, varLines, h0n, hl1, hl2, hl3, h4e, h5p, hvar, hOL⟩ :=
    formatObjectLines_eq ho
  subst hOL
  have hvarn : ∀ l ∈ varLines, l ≠ [] := by
    rcases hvar with ⟨ht, items, hit, hov⟩ | ⟨ht, heq⟩
    · obtain ⟨hlen, hall⟩ := objVarLines_shape items varLines hov
      intro l hl
      obtain ⟨s, hse⟩ := hall l hl
      rw [hse, show cs "  - " = ' ' :: cs " - " from by decide, List.cons_append]
      simp
    · subst heq
      intro l hl
      rcases List.mem_cons.mp hl with h3 | h3
      · subst h3
        decide
      · cases h3
  have hhdrne : (cs "[Object Variables (" ++ natChars nPr ++ cs ")]") ≠ [] := by
    rw [show cs "[Object Variables (" = '[' :: cs "Object Variables (" from by decide,
      List.cons_append]
    simp
  have hsec : lastSection
      ((cs "Object: " ++ pyStr (pdGetD ys (cs "name") (PyVal.str (cs "Unknown Object")))) ::
        List.replicate (nLen + 8) '=' ::
        [] :: cs "[Properties]" :: l1 :: l2 :: l3 ::
        fieldLine ys (cs "Visible") (cs "visible") (cs "True") ::
        fieldLine ys (cs "Solid") (cs "solid") (cs "False") ::
        fieldLine ys (cs "Persistent") (cs "persistent") (cs "False") ::
        [] :: (cs "[Events (" ++ natChars nEv ++ cs ")]") ::
        (physBlock ys ++
         ([] :: (cs "[Object Variables (" ++ natChars nPr ++ cs ")]") :: varLines))) =
      (cs "[Object Variables (" ++ natChars nPr ++ cs ")]") :: varLines := by
    rw [show
      ((cs "Object: " ++ pyStr (pdGetD ys (cs "name") (PyVal.str (cs "Unknown Object")))) ::
        List.replicate (nLen + 8) '=' ::
        [] :: cs "[Properties]" :: l1 :: l2 :: l3 ::
        fieldLine ys (cs "Visible") (cs "visible") (cs "True") ::
        fieldLine ys (cs "Solid") (cs "solid") (cs "False") ::
        fieldLine ys (cs "Persistent") (cs "persistent") (cs "False") ::
        [] :: (cs "[Events (" ++ natChars nEv ++ cs ")]") ::
        (physBlock ys ++
         ([] :: (cs "[Object Variables (" ++ natChars nPr ++ cs ")]") :: varLines))) =
      ([(cs "Object: " ++ pyStr (pdGetD ys (cs "name") (PyVal.str (cs "Unknown Object")))),
        List.replicate (nLen + 8) '=',
        [], cs "[Properties]", l1, l2, l3,
        fieldLine ys (cs "Visible") (cs "visible") (cs "True"),
        fieldLine ys (cs "Solid") (cs "solid") (cs "False"),
        fieldLine ys (cs "Persistent") (cs "persistent") (cs "False"),
        [], (cs "[Events (" ++ natChars nEv ++ cs ")]")] ++ physBlock ys) ++
        ([] :: ((cs "[Object Variables (" ++ natChars nPr ++ cs ")]") :: varLines))
      from by simp [List.append_assoc]]
    exact lastSection_append _ _ (fun y hy => by
      rcases List.mem_cons.mp hy with h3 | h3
      · rw [h3]; exact hhdrne
      · exact hvarn y h3)
  refine ⟨nPr, varLines, hsec, ?_⟩
  rcases hvar with ⟨ht, items, hit, hov⟩ | ⟨ht, heq⟩
  · obtain ⟨hlen, hall⟩ := objVarLines_shape items varLines hov
    rw [List.countP_eq_length.mpr (fun l hl => by
      obtain ⟨s, hse⟩ := hall l hl
      rw [hse]
      exact isVarItem_item s), hlen]
    have h6 := (pyLen_asIter hit).symm.trans h5p
    exact Option.some.inj h6
  · subst heq
    rw [pyLen_falsy ht h5p]
    decide

/-- Claim C7, amended: for every dict record, the room renderer's
`Layers (N)` header reports exactly the number of depth-1 layer lines in
the layers section, and the object renderer's `[Object Variables (N)]`
header reports exactly the number of detail lines in the final section;
the `[Events (N)]` header, however, is count-only: its section never
holds any detail line, whatever N is. -/
theorem render_counts_match (xs ys : PyDict) (RL OL : List (List Char))
    (hr : formatRoomLines (PyVal.dict xs) = some RL)
    (ho : formatObjectLines (PyVal.dict ys) = some OL) :
    (∃ n g, (g = glyphMid ∨ g = glyphEnd) ∧
       RL.tail.head? = some (g ++ ' ' :: cs "Layers (" ++ natChars n ++ [')']) ∧
       (layersSection RL).countP isDepth1 = n) ∧
    (∃ m, findFirstP isEventsHdr OL =
        some (cs "[Events (" ++ natChars m ++ cs ")]") ∧
      sectionAtP isEventsHdr OL = []) ∧
    (∃ q vlines, lastSection OL =
        (cs "[Object Variables (" ++ natChars q ++ cs ")]") :: vlines ∧
      vlines.countP isVarItem = q) :=
  ⟨room_layers_count xs RL hr, object_events_sections ys OL ho,
   object_vars_count ys OL ho⟩

/-- Witness for the amended claim C7 at the empty room and object records. -/
theorem render_counts_match_witness :
    (∃ n g, (g = glyphMid ∨ g = glyphEnd) ∧
       roomNilLines.tail.head? = some (g ++ ' ' :: cs "Layers (" ++ natChars n ++ [')']) ∧
       (layersSection roomNilLines).countP isDepth1 = n) ∧
    (∃ m, findFirstP isEventsHdr objNilLines =
        some (cs "[Events (" ++ natChars m ++ cs ")]") ∧
      sectionAtP isEventsHdr objNilLines = []) ∧
    (∃ q vlines, lastSection objNilLines =
        (cs "[Object Variables (" ++ natChars q ++ cs ")]") :: vlines ∧
      vlines.countP isVarItem = q) :=
  render_counts_match PyDict.nil PyDict.nil roomNilLines objNilLines
    (by decide) (by decide)

/-- Counterexample to claim C7 as stated: the one-event object record
renders an `[Events (1)]` count header whose section holds no detail
lines at all, so the header count 1 is not the number of detail lines. -/
theorem render_counts_counterexample :
    formatObjectLines objOneEvent = some objOneEventLines ∧
    findFirstP isEventsHdr objOneEventLines =
      some (cs "[Events (" ++ natChars 1 ++ cs ")]") ∧
    sectionAtP isEventsHdr objOneEventLines = [] ∧
    decide ((sectionAtP isEventsHdr objOneEventLines).length = 1) = false :=
  ⟨by decide, by decide, by decide, by decide⟩
